import Mathlib

/-!
# Introspector verification

Shallow embedding of `crates/typst/src/introspection/introspector.rs`:
the post-layout introspection index (`Introspector`), its construction from
frame trees (`extract`), and its query surface (`query`, `query_first`,
`query_label`, `position`, `page`, `page_numbering`), together with proofs
about the selector algebra.

Modelling choices:
* coordinates (`Abs`/`Ratio`, `f64` in the source) are embedded as `ℚ`,
  keeping the affine-transform algebra exact;
* `Location` and the opaque match capabilities are embedded as `Nat` tokens;
  `Label` is a `String` (the source's `Label` wraps an interned string and
  `Label::repr` renders it as `<text>`);
* the `IndexMap<Location, _>` is an insertion-ordered association list, the
  `HashMap` caches are association lists;
* `Numbering` is opaque and embedded as `Nat`;
* the memoization `RefCell<HashMap<u128, _>>` is embedded by explicit state
  passing (`queryC`), keyed by the selector value itself, which models the
  collision-free structural `hash128` fingerprint.
-/

namespace Introspection

/-- A point, `layout::Point` (two absolute lengths). -/
structure Point where
  x : ℚ
  y : ℚ
deriving DecidableEq, Repr

instance : Inhabited Point := ⟨⟨0, 0⟩⟩

/-- A 2D affine transform, `layout::Transform` (`sx ky kx sy tx ty`). -/
structure Transform where
  sx : ℚ
  ky : ℚ
  kx : ℚ
  sy : ℚ
  tx : ℚ
  ty : ℚ
deriving DecidableEq, Repr

/-- Rust `Transform::identity`. -/
def Transform.identity : Transform := ⟨1, 0, 0, 1, 0, 0⟩

/-- Rust `Transform::translate(tx, ty)`. -/
def Transform.translate (tx ty : ℚ) : Transform := ⟨1, 0, 0, 1, tx, ty⟩

/-- Rust `Transform::pre_concat(self, prev)`: the transform applying `prev` first,
then `self`. -/
def Transform.pre_concat (s q : Transform) : Transform :=
  ⟨s.sx * q.sx + s.kx * q.ky,
   s.ky * q.sx + s.sy * q.ky,
   s.sx * q.kx + s.kx * q.sy,
   s.ky * q.kx + s.sy * q.sy,
   s.sx * q.tx + s.kx * q.ty + s.tx,
   s.ky * q.tx + s.sy * q.ty + s.ty⟩

/-- Rust `Point::transform(self, ts)`. -/
def Point.transform (p : Point) (ts : Transform) : Point :=
  ⟨ts.sx * p.x + ts.kx * p.y + ts.tx,
   ts.ky * p.x + ts.sy * p.y + ts.ty⟩

/-- Pointwise sum of two points (used to state the spec's range formula). -/
def Point.add (p q : Point) : Point := ⟨p.x + q.x, p.y + q.y⟩

/-- An element snapshot (`Content`): its `Location` (`location().unwrap()` —
post-layout every introspectable element carries a location, so it is a total
field here), its optional `Label`, and an opaque kind token consumed by the
match capabilities. -/
structure Content where
  loc : Nat
  label : Option String
  kind : Nat
deriving DecidableEq, Repr

instance : Inhabited Content := ⟨⟨0, none, 0⟩⟩

/-- Rust `layout::Position`: page number (`NonZeroUsize`, embedded as `Nat`, always
assigned `1 + i`) and a point in final page coordinates. -/
structure Position where
  page : Nat
  point : Point
deriving DecidableEq, Repr

instance : Inhabited Position := ⟨⟨1, ⟨0, 0⟩⟩⟩

/-- The selector algebra (`foundations::Selector`), restricted to the data
`Introspector::query` consumes.  `Elem`, `Regex` and `Can` carry opaque
payloads (element function, regex pattern, `TypeId`), embedded as `Nat`
tokens interpreted by a `MatchEnv`. -/
inductive Selector where
  | label (l : String)
  | elem (t : Nat)
  | regex (t : Nat)
  | can (t : Nat)
  | location (loc : Nat)
  | before (sel endSel : Selector) (inclusive : Bool)
  | after (sel startSel : Selector) (inclusive : Bool)
  | and (sels : List Selector)
  | or (sels : List Selector)

mutual

/-- Structural equality test on selectors (models the structural `hash128`
fingerprint used as the query-cache key). -/
def Selector.beq : Selector → Selector → Bool
  | .label a, .label b => a == b
  | .elem a, .elem b => a == b
  | .regex a, .regex b => a == b
  | .can a, .can b => a == b
  | .location a, .location b => a == b
  | .before s1 e1 i1, .before s2 e2 i2 =>
      Selector.beq s1 s2 && Selector.beq e1 e2 && i1 == i2
  | .after s1 e1 i1, .after s2 e2 i2 =>
      Selector.beq s1 s2 && Selector.beq e1 e2 && i1 == i2
  | .and xs, .and ys => Selector.beqList xs ys
  | .or xs, .or ys => Selector.beqList xs ys
  | _, _ => false

/-- Pointwise `Selector.beq` on lists. -/
def Selector.beqList : List Selector → List Selector → Bool
  | [], [] => true
  | x :: xs, y :: ys => Selector.beq x y && Selector.beqList xs ys
  | _, _ => false

end

instance : BEq Selector := ⟨Selector.beq⟩

/-- Interpretation of the opaque match capabilities of `Selector::matches`:
element-kind match, regex match and capability match are boolean predicates
on content determined by the selector's payload. -/
structure MatchEnv where
  elemMatches : Nat → Content → Bool
  regexMatches : Nat → Content → Bool
  canMatches : Nat → Content → Bool

/-- Rust `Selector::matches(content)`, for the three scan variants on which
`Introspector::query` invokes it (the other variants never reach it there). -/
def Selector.matches (env : MatchEnv) : Selector → Content → Bool
  | .elem t, c => env.elemMatches t c
  | .regex t, c => env.regexMatches t c
  | .can t, c => env.canMatches t c
  | _, _ => false

/-- A frame item (`FrameItem`), as consumed by `Introspector::extract`:
a nested group (sub-frame plus local transform), an element marker
(`Meta::Elem`), a page-numbering marker (`Meta::PageNumbering`), or anything
else (ignored). -/
inductive FrameItem where
  | group (frame : List (Point × FrameItem)) (transform : Transform)
  | elem (content : Content)
  | pageNumbering (numbering : Option Nat)
  | other

/-- A frame: a list of positioned items. -/
abbrev Frame := List (Point × FrameItem)

/-- The introspection index (`Introspector`). -/
structure Introspector where
  pages : Nat
  elems : List (Content × Position)
  pageNumberings : List (Option Nat)
  labelCache : List (String × List Nat)

/-- The `usize::MAX` sentinel of `Introspector::index`. -/
def usizeMax : Nat := 2 ^ 64 - 1

/-- The element-index keys in insertion order. -/
def Introspector.locs (i : Introspector) : List Nat :=
  i.elems.map (fun e => e.1.loc)

/-- Rust `IndexMap::contains_key`. -/
def Introspector.containsKey (i : Introspector) (loc : Nat) : Bool :=
  i.elems.any (fun e => e.1.loc == loc)

/-- Rust `Introspector::all` (document-order iteration over all elements). -/
def Introspector.all (i : Introspector) : List Content :=
  i.elems.map (fun e => e.1)

/-- Rust `Introspector::get` (`IndexMap::get` by location). -/
def Introspector.get? (i : Introspector) (loc : Nat) : Option Content :=
  (i.elems.find? (fun e => e.1.loc == loc)).map (fun e => e.1)

/-- Rust `self.elems[index].0` (positional access into the element index). -/
def Introspector.elemAt (i : Introspector) (k : Nat) : Content :=
  (i.elems.getD k default).1

/-- Rust `Introspector::index`: `get_index_of(location).unwrap_or(usize::MAX)`. -/
def Introspector.index (i : Introspector) (c : Content) : Nat :=
  if c.loc ∈ i.locs then i.locs.indexOf c.loc else usizeMax

/-- Rust `Result<usize, usize>` of `slice::binary_search_by_key`. -/
inductive SearchOutcome where
  | found (idx : Nat)
  | missing (ins : Nat)
deriving DecidableEq, Repr

/-- Rust `Result::is_ok`. -/
def SearchOutcome.isFound : SearchOutcome → Bool
  | .found _ => true
  | .missing _ => false

/-- The classic in-bounds binary-search loop of `slice::binary_search_by_key`
over keys `f 0, …, f (len-1)`: `found` at an index whose key equals `key`,
else `missing` at the insertion point. -/
def bsLoop (f : Nat → Nat) (key left right : Nat) : SearchOutcome :=
  if h : left < right then
    if f ((left + right) / 2) < key then bsLoop f key ((left + right) / 2 + 1) right
    else if key < f ((left + right) / 2) then bsLoop f key left ((left + right) / 2)
    else .found ((left + right) / 2)
  else .missing left
termination_by right - left
decreasing_by
  all_goals omega

/-- Rust `Introspector::binary_search(list, elem)`: binary search of `list` keyed
by document index. -/
def Introspector.binarySearch (i : Introspector) (list : List Content)
    (c : Content) : SearchOutcome :=
  bsLoop (fun k => i.index (list.getD k default)) (i.index c) 0 list.length

/-- Index of the first list of minimal length
(`iter().enumerate().min_by_key(|(_, vec)| vec.len())`). -/
def minLenIdx : List (List Content) → Option Nat
  | [] => none
  | l :: ls =>
    match minLenIdx ls with
    | none => some 0
    | some j => if (ls.getD j []).length < l.length then some (j + 1) else some 0

/-- Rust `Vec::swap_remove(k)`: remove index `k`, moving the last element into its
place. -/
def swapRemove (l : List (List Content)) (k : Nat) : List (List Content) :=
  (l.set k (l.getLastD [])).dropLast

/-- Ascending duplicate-free enumeration of a list of naturals: the contents
of the `BTreeSet<usize>` built by the `Or` arm, in iteration order. -/
def sortDedup (l : List Nat) : List Nat :=
  (l.insertionSort (· ≤ ·)).dedup

/-- The `Selector::Label` arm of `query`: snapshots at the label cache's
indices, empty when the label is absent (`unwrap_or_default`). -/
def labelEval (i : Introspector) (l : String) : List Content :=
  match List.lookup l i.labelCache with
  | some indices => indices.map i.elemAt
  | none => []

/-- The `Elem | Regex | Can` arm of `query`: full document-order scan. -/
def scanEval (env : MatchEnv) (i : Introspector) (s : Selector) : List Content :=
  i.all.filter (fun c => Selector.matches env s c)

/-- The `Selector::Location` arm of `query`: `get(location).into_iter()`. -/
def locEval (i : Introspector) (loc : Nat) : List Content :=
  match i.get? loc with
  | some c => [c]
  | none => []

/-- The split point of the `Before` arm: `Ok(i) => i + inclusive as usize`,
`Err(i) => i`. -/
def beforeSplit (i : Introspector) (list : List Content) (c : Content)
    (inclusive : Bool) : Nat :=
  match i.binarySearch list c with
  | .found k => k + (if inclusive then 1 else 0)
  | .missing k => k

/-- The split point of the `After` arm: `Ok(i) => i + !inclusive as usize`,
`Err(i) => i`. -/
def afterSplit (i : Introspector) (list : List Content) (c : Content)
    (inclusive : Bool) : Nat :=
  match i.binarySearch list c with
  | .found k => k + (if inclusive then 0 else 1)
  | .missing k => k

/-- The `Selector::And` arm of `query`, given the evaluated sub-results:
extract the (first) smallest list, keep its elements that occur (by binary
search on document index) in every other list. -/
def andCombine (i : Introspector) (results : List (List Content)) : List Content :=
  match minLenIdx results with
  | none => []
  | some k =>
    (results.getD k []).filter (fun cand =>
      (swapRemove results k).all (fun other => (i.binarySearch other cand).isFound))

/-- The `Selector::Or` arm of `query`, given the evaluated sub-results:
collect all document indices into a sorted duplicate-free set and map back to
snapshots. -/
def orCombine (i : Introspector) (results : List (List Content)) : List Content :=
  (sortDedup ((results.flatten).map i.index)).map i.elemAt

mutual

/-- Rust `Introspector::query(selector)` without its memoization layer (the cache
is semantically transparent; it is modelled separately by `queryC`).  The
`Before`/`After` arms inline `query_first` on the boundary selector exactly as
the source calls it. -/
def Introspector.query (env : MatchEnv) (i : Introspector) : Selector → List Content
  | .label l => labelEval i l
  | .elem t => scanEval env i (.elem t)
  | .regex t => scanEval env i (.regex t)
  | .can t => scanEval env i (.can t)
  | .location loc => locEval i loc
  | .before sel endSel inclusive =>
    let list := Introspector.query env i sel
    match (match endSel with
           | .location loc => i.get? loc
           | _ => (Introspector.query env i endSel).head?) with
    | some c => list.take (beforeSplit i list c inclusive)
    | none => list
  | .after sel startSel inclusive =>
    let list := Introspector.query env i sel
    match (match startSel with
           | .location loc => i.get? loc
           | _ => (Introspector.query env i startSel).head?) with
    | some c => list.drop (afterSplit i list c inclusive)
    | none => list
  | .and sels => andCombine i (Introspector.queryMap env i sels)
  | .or sels => orCombine i (Introspector.queryMap env i sels)

/-- Rust `selectors.iter().map(|sel| self.query(sel)).collect()`. -/
def Introspector.queryMap (env : MatchEnv) (i : Introspector) : List Selector → List (List Content)
  | [] => []
  | s :: rest => Introspector.query env i s :: Introspector.queryMap env i rest

end

/-- Rust `Introspector::query_first(selector)`: direct lookup for `Location`,
otherwise the first element of `query`. -/
def Introspector.queryFirst (env : MatchEnv) (i : Introspector) (s : Selector) :
    Option Content :=
  match s with
  | .location loc => i.get? loc
  | _ => (i.query env s).head?

/-- The query cache (`RefCell<HashMap<u128, EcoVec<_>>>`), keyed by the
selector's structural fingerprint. -/
abbrev Cache := List (Selector × List Content)

mutual

/-- Rust `Introspector::query(selector)` with its memoization layer, the
`RefCell` cache modelled by explicit state passing: check the cache, on a
miss evaluate (threading the cache through sub-queries, as the source's
recursive `self.query` calls do) and insert the result. -/
def Introspector.queryC (env : MatchEnv) (i : Introspector) :
    Selector → Cache → List Content × Cache
  | s, cache =>
    match List.lookup s cache with
    | some out => (out, cache)
    | none =>
      let rc : List Content × Cache :=
        match s with
        | .label l => (labelEval i l, cache)
        | .elem t => (scanEval env i (.elem t), cache)
        | .regex t => (scanEval env i (.regex t), cache)
        | .can t => (scanEval env i (.can t), cache)
        | .location loc => (locEval i loc, cache)
        | .before sel endSel inclusive =>
          let p1 := Introspector.queryC env i sel cache
          let p2 : Option Content × Cache :=
            match endSel with
            | .location loc => (i.get? loc, p1.2)
            | _ =>
              let q := Introspector.queryC env i endSel p1.2
              (q.1.head?, q.2)
          match p2.1 with
          | some c => (p1.1.take (beforeSplit i p1.1 c inclusive), p2.2)
          | none => (p1.1, p2.2)
        | .after sel startSel inclusive =>
          let p1 := Introspector.queryC env i sel cache
          let p2 : Option Content × Cache :=
            match startSel with
            | .location loc => (i.get? loc, p1.2)
            | _ =>
              let q := Introspector.queryC env i startSel p1.2
              (q.1.head?, q.2)
          match p2.1 with
          | some c => (p1.1.drop (afterSplit i p1.1 c inclusive), p2.2)
          | none => (p1.1, p2.2)
        | .and sels =>
          let p := Introspector.queryAll env i sels cache
          (andCombine i p.1, p.2)
        | .or sels =>
          let p := Introspector.queryAll env i sels cache
          (orCombine i p.1, p.2)
      (rc.1, (s, rc.1) :: rc.2)

/-- Sequential evaluation of a list of sub-selectors, threading the cache. -/
def Introspector.queryAll (env : MatchEnv) (i : Introspector) :
    List Selector → Cache → List (List Content) × Cache
  | [], cache => ([], cache)
  | s :: rest, cache =>
    let p := Introspector.queryC env i s cache
    let q := Introspector.queryAll env i rest p.2
    (p.1 :: q.1, q.2)

end

/-- The boundary evaluation of the `Before`/`After` arms of `queryC`:
`query_first` on the boundary selector, threading the cache. -/
def boundaryC (env : MatchEnv) (i : Introspector) (endSel : Selector)
    (cache : Cache) : Option Content × Cache :=
  match endSel with
  | .location loc => (i.get? loc, cache)
  | _ => ((i.queryC env endSel cache).1.head?, (i.queryC env endSel cache).2)

/-- The result/cache pair computed by the cache-miss `Before` arm of
`queryC`. -/
def beforeRC (env : MatchEnv) (i : Introspector) (sel endSel : Selector)
    (inclusive : Bool) (cache : Cache) : List Content × Cache :=
  match (boundaryC env i endSel (i.queryC env sel cache).2).1 with
  | some c =>
    ((i.queryC env sel cache).1.take
        (beforeSplit i (i.queryC env sel cache).1 c inclusive),
     (boundaryC env i endSel (i.queryC env sel cache).2).2)
  | none =>
    ((i.queryC env sel cache).1,
     (boundaryC env i endSel (i.queryC env sel cache).2).2)

/-- The result/cache pair computed by the cache-miss `After` arm of
`queryC`. -/
def afterRC (env : MatchEnv) (i : Introspector) (sel startSel : Selector)
    (inclusive : Bool) (cache : Cache) : List Content × Cache :=
  match (boundaryC env i startSel (i.queryC env sel cache).2).1 with
  | some c =>
    ((i.queryC env sel cache).1.drop
        (afterSplit i (i.queryC env sel cache).1 c inclusive),
     (boundaryC env i startSel (i.queryC env sel cache).2).2)
  | none =>
    ((i.queryC env sel cache).1,
     (boundaryC env i startSel (i.queryC env sel cache).2).2)

/-- The outcome of `Introspector::query_label` (`StrResult<&Content>`). -/
inductive LabelResult where
  | ok (content : Content)
  | err (message : String)
deriving DecidableEq, Repr

/-- Rust `Introspector::query_label(label)`: exactly-one resolution over the label
cache.  The `indices[0]` access is modelled by `headD 0`; construction never
creates an empty cache entry. -/
def Introspector.queryLabel (i : Introspector) (label : String) : LabelResult :=
  match List.lookup label i.labelCache with
  | none => .err ("label `<" ++ label ++ ">` does not exist in the document")
  | some indices =>
    if 1 < indices.length then
      .err ("label `<" ++ label ++ ">` occurs multiple times in the document")
    else
      .ok (i.elemAt (indices.headD 0))

/-- Rust `Introspector::pages()`: total page count with floor 1
(`NonZeroUsize::new(pages).unwrap_or(ONE)`). -/
def Introspector.pagesCount (i : Introspector) : Nat :=
  if i.pages = 0 then 1 else i.pages

/-- Rust `Introspector::position(location)`: O(1) lookup with the defensive
default `Position { page: 1, point: origin }`. -/
def Introspector.position (i : Introspector) (loc : Nat) : Position :=
  match i.elems.find? (fun e => e.1.loc == loc) with
  | some e => e.2
  | none => { page := 1, point := ⟨0, 0⟩ }

/-- Rust `Introspector::page(location)`. -/
def Introspector.page (i : Introspector) (loc : Nat) : Nat :=
  (i.position loc).page

/-- Rust `Introspector::page_numbering(location)`:
`page_numberings.get(page - 1).and_then(|slot| slot.as_ref())`. -/
def Introspector.pageNumbering (i : Introspector) (loc : Nat) : Option Nat :=
  match i.pageNumberings.get? (i.page loc - 1) with
  | some slot => slot
  | none => none

/-- Append an index to a label's slot in the label cache
(`entry(label).or_insert_with(SmallVec::new).push(idx)`). -/
def pushLabel (cache : List (String × List Nat)) (l : String) (idx : Nat) :
    List (String × List Nat) :=
  match cache with
  | [] => [(l, [idx])]
  | (k, v) :: rest =>
    if k == l then (k, v ++ [idx]) :: rest else (k, v) :: pushLabel rest l idx

/-- The element-marker step of `Introspector::extract`.  The source's match
guard `if !self.elems.contains_key(&content.location().unwrap())` routes an
already-indexed location to the catch-all `_ => {}` arm, so the marker is
skipped; when the guard passes, the insertion's prior value is `None`, so
`assert!(ret.is_none(), "duplicate locations")` holds and never aborts. -/
def insertElem (i : Introspector) (c : Content) (position : Position) :
    Introspector :=
  if i.containsKey c.loc then i
  else
    let elems' := i.elems ++ [(c, position)]
    let base := { i with elems := elems' }
    match c.label with
    | some l => { base with labelCache := pushLabel base.labelCache l (elems'.length - 1) }
    | none => base

mutual

/-- Rust `Introspector::extract(frame, page, ts)`: depth-first pre-order walk of a
frame, processing each positioned item in order. -/
def extract : Introspector → Frame → Nat → Transform → Introspector
  | i, [], _, _ => i
  | i, (pos, item) :: rest, page, ts =>
    extract (extractItem i pos item page ts) rest page ts

/-- One step of the walk: groups recurse with the accumulated transform
composed as `ts.pre_concat(translate(pos)).pre_concat(group.transform)`;
element markers are inserted at `pos.transform(ts)`; page-numbering markers
are appended to the global numbering list; other items are ignored. -/
def extractItem : Introspector → Point → FrameItem → Nat → Transform → Introspector
  | i, pos, .group gframe gts, page, ts =>
    extract i gframe page
      ((ts.pre_concat (Transform.translate pos.x pos.y)).pre_concat gts)
  | i, pos, .elem c, page, ts =>
    insertElem i c ⟨page, pos.transform ts⟩
  | i, _, .pageNumbering n, _, _ =>
    { i with pageNumberings := i.pageNumberings ++ [n] }
  | i, _, .other, _, _ => i

end

/-- The per-page loop of `Introspector::with_capacity`: page `1 + i` for the
`i`-th frame, starting from the identity transform. -/
def extractPages (i : Introspector) (frames : List Frame) (page : Nat) :
    Introspector :=
  match frames with
  | [] => i
  | f :: rest => extractPages (extract i f page Transform.identity) rest (page + 1)

/-- Rust `Introspector::new(frames)` (= `with_capacity(frames, 0)`). -/
def introspectorNew (frames : List Frame) : Introspector :=
  extractPages ⟨frames.length, [], [], []⟩ frames 1

mutual

/-- The page-numbering marker values of a frame, in walk (pre-)order,
descending into groups exactly as `extract` does. -/
def frameNumberings : Frame → List (Option Nat)
  | [] => []
  | (_, item) :: rest => itemNumberings item ++ frameNumberings rest

/-- The page-numbering marker values contributed by one frame item. -/
def itemNumberings : FrameItem → List (Option Nat)
  | .group g _ => frameNumberings g
  | .pageNumbering n => [n]
  | _ => []

end

/-- Well-formedness of a built index: element locations are unique (document
index is well defined), and every label-cache entry is a nonempty strictly
increasing list of in-range element positions whose elements carry that
label. -/
structure Introspector.WF (i : Introspector) : Prop where
  locsNodup : i.locs.Nodup
  labelSorted : ∀ p ∈ i.labelCache, List.Sorted (· < ·) p.2
  labelInRange : ∀ p ∈ i.labelCache, ∀ k ∈ p.2, k < i.elems.length
  labelNonempty : ∀ p ∈ i.labelCache, p.2 ≠ []
  labelCorrect : ∀ p ∈ i.labelCache, ∀ k ∈ p.2, (i.elemAt k).label = some p.1

/-- An element is canonical when it is the snapshot stored at its own
document index. -/
def Introspector.Canon (i : Introspector) (c : Content) : Prop :=
  i.index c < i.elems.length ∧ i.elemAt (i.index c) = c

/-- The invariant every evaluation result carries: strictly increasing in
document index, and made of canonical snapshots. -/
def GoodList (i : Introspector) (L : List Content) : Prop :=
  List.Sorted (· < ·) (L.map i.index) ∧ ∀ c ∈ L, i.Canon c

/-- Specification of a binary-search outcome over keys `f 0, …, f (n-1)`:
`found` hits an index whose key is `key`; `missing` returns the insertion
point, below which all keys are smaller and from which on all are larger. -/
def BSOut (f : Nat → Nat) (key n : Nat) : SearchOutcome → Prop
  | .found k => k < n ∧ f k = key
  | .missing k => k ≤ n ∧ (∀ j, j < k → f j < key) ∧ ∀ j, k ≤ j → j < n → key < f j

/-- A page frame holding one element nested two groups deep: the outer group
sits at offset `o2` with transform `T2`, the inner group at offset `o1` with
transform `T1`, and the element marker at local point `p`. -/
def nestedFrame (o2 o1 p : Point) (T2 T1 : Transform) (c : Content) : Frame :=
  [(o2, .group [(o1, .group [(p, .elem c)] T1)] T2)]

/-- Two element markers sharing location `5` (duplicate-location input). -/
def dupC1 : Content := ⟨5, some "a", 0⟩

/-- Second marker with the same location as `dupC1` but a different label. -/
def dupC2 : Content := ⟨5, some "b", 0⟩

/-- A frame carrying two element markers with the same location. -/
def dupFrame : Frame := [(⟨0, 0⟩, .elem dupC1), (⟨0, 0⟩, .elem dupC2)]

/-- Element on page 2 of the page-numbering counterexample document. -/
def c3Content : Content := ⟨5, none, 0⟩

/-- Two pages: page 1 empty, page 2 with an element and a numbering marker. -/
def c3Frames : List Frame :=
  [[], [(⟨0, 0⟩, .elem c3Content), (⟨0, 0⟩, .pageNumbering (some 7))]]

/-- One-marker-per-page document for the amended page-numbering claim. -/
def c3GoodFrames : List Frame :=
  [[(⟨0, 0⟩, .elem ⟨30, none, 0⟩), (⟨0, 0⟩, .pageNumbering (some 3))]]

/-- Concrete witness elements (locations 10, 11, 12; kinds 0, 1, 0). -/
def wC0 : Content := ⟨10, none, 0⟩

/-- Witness element at document index 1. -/
def wC1 : Content := ⟨11, none, 1⟩

/-- Witness element at document index 2. -/
def wC2 : Content := ⟨12, none, 0⟩

/-- One page holding the three witness elements. -/
def wFrames : List Frame :=
  [[(⟨0, 0⟩, .elem wC0), (⟨0, 0⟩, .elem wC1), (⟨0, 0⟩, .elem wC2)]]

/-- Witness match environment: element tag 9 matches everything, any other
tag matches contents of that kind. -/
def wEnv : MatchEnv :=
  ⟨fun t c => (t == 9) || (c.kind == t), fun _ _ => false, fun _ _ => false⟩

/-- Labelled witness elements: label `u` once, label `d` twice. -/
def lC1 : Content := ⟨20, some "u", 0⟩

/-- First of the two elements labelled `d`. -/
def lC2 : Content := ⟨21, some "d", 0⟩

/-- Second of the two elements labelled `d`. -/
def lC3 : Content := ⟨22, some "d", 0⟩

/-- One page holding the three labelled witness elements. -/
def lFrames : List Frame :=
  [[(⟨0, 0⟩, .elem lC1), (⟨0, 0⟩, .elem lC2), (⟨0, 0⟩, .elem lC3)]]

/-! ## Transform algebra -/

theorem Point.transform_pre_concat (p : Point) (s q : Transform) :
    p.transform (s.pre_concat q) = (p.transform q).transform s := by
  simp only [Point.transform, Transform.pre_concat, Point.mk.injEq]
  constructor <;> ring

theorem Point.transform_translate (p : Point) (a b : ℚ) :
    p.transform (Transform.translate a b) = p.add ⟨a, b⟩ := by
  simp only [Point.transform, Transform.translate, Point.add, Point.mk.injEq]
  constructor <;> ring

theorem Point.transform_identity (p : Point) :
    p.transform Transform.identity = p := by
  cases p
  simp only [Point.transform, Transform.identity, Point.mk.injEq]
  constructor <;> ring

/-! ## Document index basics -/

theorem Introspector.locs_length (i : Introspector) :
    i.locs.length = i.elems.length := by
  simp [Introspector.locs]

theorem Introspector.index_elemAt (i : Introspector) (hn : i.locs.Nodup) {k : Nat}
    (hk : k < i.elems.length) : i.index (i.elemAt k) = k := by
  have hk' : k < i.locs.length := by rw [i.locs_length]; exact hk
  have hloc : (i.elemAt k).loc = i.locs[k] := by
    simp [Introspector.elemAt, Introspector.locs, List.getD,
      List.getElem?_eq_getElem hk]
  have hmem : (i.elemAt k).loc ∈ i.locs := by
    rw [hloc]; exact List.getElem_mem hk'
  rw [Introspector.index, if_pos hmem, hloc]
  exact List.indexOf_getElem hn k hk'

theorem Introspector.canon_elemAt (i : Introspector) (hn : i.locs.Nodup) {k : Nat}
    (hk : k < i.elems.length) : i.Canon (i.elemAt k) := by
  refine ⟨?_, ?_⟩ <;> rw [i.index_elemAt hn hk]
  · exact hk

theorem Introspector.canon_index_lt (i : Introspector) {c : Content}
    (h : i.Canon c) : i.index c < i.elems.length := h.1

/-- Association-list lookup only returns stored values. -/
theorem lookup_mem {α β : Type} [BEq α] {l : List (α × β)} {a : α} {b : β}
    (h : List.lookup a l = some b) : ∃ k, (k, b) ∈ l ∧ (a == k) = true := by
  induction l with
  | nil => simp [List.lookup] at h
  | cons p rest ih =>
    obtain ⟨k0, b0⟩ := p
    rw [List.lookup] at h
    by_cases hk : (a == k0) = true
    · rw [hk] at h
      simp only at h
      obtain rfl : b0 = b := Option.some.inj h
      exact ⟨k0, List.mem_cons_self _ _, hk⟩
    · rw [Bool.of_not_eq_true hk] at h
      simp only at h
      obtain ⟨k, hk1, hk2⟩ := ih h
      exact ⟨k, List.mem_cons_of_mem _ hk1, hk2⟩

/-- The count `countP` of a prefix-true / suffix-false split is the split point. -/
theorem countP_split {α : Type} [Inhabited α] (p : α → Bool) :
    ∀ (L : List α) (k : Nat), k ≤ L.length →
    (∀ j, j < k → p (L.getD j default) = true) →
    (∀ j, k ≤ j → j < L.length → p (L.getD j default) = false) →
    L.countP p = k := by
  intro L
  induction L with
  | nil =>
    intro k hk _ _
    simp only [List.length_nil, Nat.le_zero] at hk
    simp [hk]
  | cons a t ih =>
    intro k hk htrue hfalse
    cases k with
    | zero =>
      rw [List.countP_eq_zero]
      intro x hx
      obtain ⟨j, hj, rfl⟩ := List.mem_iff_getElem.mp hx
      have := hfalse j (Nat.zero_le j) hj
      rw [List.getD_eq_getElem _ _ hj] at this
      simp [this]
    | succ k' =>
      have ha : p a = true := by
        have := htrue 0 (Nat.succ_pos k')
        simpa using this
      have hrec : t.countP p = k' := by
        refine ih k' (by simpa using hk) ?_ ?_
        · intro j hj
          have := htrue (j + 1) (by omega)
          simpa using this
        · intro j hj1 hj2
          have := hfalse (j + 1) (by omega) (by simpa using Nat.succ_lt_succ hj2)
          simpa using this
      simp [List.countP_cons, ha, hrec]

/-! ## Binary search -/

/-- Correctness of the binary-search loop over keys `f 0, …, f (n-1)`,
strictly monotone on `[0, n)`. -/
theorem bsLoop_spec (f : Nat → Nat) (key n : Nat)
    (hmono : ∀ a b, a < b → b < n → f a < f b)
    (left right : Nat) (hlr : left ≤ right) (hrn : right ≤ n)
    (hlow : ∀ j, j < left → f j < key)
    (hhigh : ∀ j, right ≤ j → j < n → key < f j) :
    BSOut f key n (bsLoop f key left right) := by
  rw [bsLoop]
  split
  next h =>
    have hmid1 : left ≤ (left + right) / 2 := by omega
    have hmid2 : (left + right) / 2 < right := by omega
    have hmidn : (left + right) / 2 < n := by omega
    split
    next hflt =>
      refine bsLoop_spec f key n hmono ((left + right) / 2 + 1) right (by omega) hrn ?_ hhigh
      intro j hj
      rcases Nat.lt_or_ge j ((left + right) / 2) with hj' | hj'
      · exact Nat.lt_trans (hmono j _ hj' hmidn) hflt
      · have : j = (left + right) / 2 := by omega
        rw [this]; exact hflt
    next hflt =>
      split
      next hfgt =>
        refine bsLoop_spec f key n hmono left ((left + right) / 2) (by omega) (by omega) hlow ?_
        intro j hj hjn
        rcases Nat.lt_or_ge ((left + right) / 2) j with hj' | hj'
        · exact Nat.lt_trans hfgt (hmono _ j hj' hjn)
        · have : j = (left + right) / 2 := by omega
          rw [this]; exact hfgt
      next hfgt =>
        exact ⟨hmidn, Nat.le_antisymm (Nat.not_lt.mp hfgt) (Nat.not_lt.mp hflt)⟩
  next h =>
    have heq : left = right := by omega
    refine ⟨by omega, hlow, ?_⟩
    intro j hj hjn
    exact hhigh j (by omega) hjn
termination_by right - left
decreasing_by
  all_goals omega

/-- Keys of a list whose mapped document indices are strictly sorted are
strictly monotone. -/
theorem sortedKeys_mono (i : Introspector) {L : List Content}
    (hs : List.Sorted (· < ·) (L.map i.index)) :
    ∀ a b, a < b → b < L.length →
      i.index (L.getD a default) < i.index (L.getD b default) := by
  intro a b hab hb
  have ha : a < L.length := Nat.lt_trans hab hb
  have ha' : a < (L.map i.index).length := by simpa using ha
  have hb' : b < (L.map i.index).length := by simpa using hb
  have h := hs.rel_get_of_lt (a := ⟨a, ha'⟩) (b := ⟨b, hb'⟩) (Fin.mk_lt_mk.mpr hab)
  simpa [List.getD, List.getElem?_eq_getElem ha, List.getElem?_eq_getElem hb,
    List.get_eq_getElem, List.getElem_map] using h

theorem Introspector.binarySearch_spec (i : Introspector) {L : List Content}
    (c : Content) (hs : List.Sorted (· < ·) (L.map i.index)) :
    BSOut (fun k => i.index (L.getD k default)) (i.index c) L.length
      (i.binarySearch L c) :=
  bsLoop_spec _ _ _ (sortedKeys_mono i hs) 0 L.length (Nat.zero_le _) le_rfl
    (fun _ hj => absurd hj (Nat.not_lt_zero _))
    (fun _ h1 h2 => absurd (Nat.lt_of_le_of_lt h1 h2) (Nat.lt_irrefl _))

/-- Binary search finds an element of the list at its own list position. -/
theorem Introspector.binarySearch_found_at (i : Introspector) {L : List Content}
    {c : Content} (hs : List.Sorted (· < ·) (L.map i.index)) {k : Nat}
    (hk : k < L.length) (heq : i.index c = i.index (L.getD k default)) :
    i.binarySearch L c = .found k := by
  have hspec := i.binarySearch_spec c hs
  cases houtcome : i.binarySearch L c with
  | found k' =>
    rw [houtcome] at hspec
    obtain ⟨hk', hfk⟩ := hspec
    have hfk2 : i.index (L.getD k' default) = i.index c := hfk
    rcases Nat.lt_trichotomy k' k with hlt | hEq | hgt
    · have := sortedKeys_mono i hs k' k hlt hk
      omega
    · rw [hEq]
    · have := sortedKeys_mono i hs k k' hgt hk'
      omega
  | missing k' =>
    rw [houtcome] at hspec
    obtain ⟨hk', hbelow, habove⟩ := hspec
    rcases Nat.lt_or_ge k k' with hlt | hge
    · have h1 : i.index (L.getD k default) < i.index c := hbelow k hlt
      omega
    · have h1 : i.index c < i.index (L.getD k default) := habove k hge hk
      omega

/-- Binary search on a key absent from the list reports the insertion point:
the number of elements with smaller document index. -/
theorem Introspector.binarySearch_missing (i : Introspector) {L : List Content}
    {c : Content} (hs : List.Sorted (· < ·) (L.map i.index))
    (hnm : i.index c ∉ L.map i.index) :
    i.binarySearch L c =
      .missing (L.countP (fun e => decide (i.index e < i.index c))) := by
  have hspec := i.binarySearch_spec c hs
  cases houtcome : i.binarySearch L c with
  | found k =>
    rw [houtcome] at hspec
    obtain ⟨hk, hfk⟩ := hspec
    have hfk2 : i.index (L.getD k default) = i.index c := hfk
    refine absurd ?_ hnm
    rw [← hfk2, List.getD_eq_getElem _ _ hk]
    exact List.mem_map_of_mem i.index (List.getElem_mem hk)
  | missing k =>
    rw [houtcome] at hspec
    obtain ⟨hk, hbelow, habove⟩ := hspec
    congr 1
    symm
    refine countP_split _ L k hk ?_ ?_
    · intro j hj
      have h1 : i.index (L.getD j default) < i.index c := hbelow j hj
      simpa using h1
    · intro j hj1 hj2
      have h1 : i.index c < i.index (L.getD j default) := habove j hj1 hj2
      simp only [decide_eq_false_iff_not]
      omega

/-! ## GoodList closure -/

theorem GoodList.sublist {i : Introspector} {L L' : List Content}
    (h : GoodList i L) (hsub : List.Sublist L' L) : GoodList i L' :=
  ⟨h.1.sublist (hsub.map i.index), fun c hc => h.2 c (hsub.subset hc)⟩

theorem GoodList.filter {i : Introspector} {L : List Content}
    (h : GoodList i L) (p : Content → Bool) : GoodList i (L.filter p) :=
  h.sublist (List.filter_sublist L)

theorem GoodList.take {i : Introspector} {L : List Content}
    (h : GoodList i L) (n : Nat) : GoodList i (L.take n) :=
  h.sublist (List.take_sublist n L)

theorem GoodList.drop {i : Introspector} {L : List Content}
    (h : GoodList i L) (n : Nat) : GoodList i (L.drop n) :=
  h.sublist (List.drop_sublist n L)

theorem goodList_nil (i : Introspector) : GoodList i [] :=
  ⟨List.sorted_nil, fun c hc => absurd hc (List.not_mem_nil c)⟩

theorem Introspector.elemAt_eq_getElem (i : Introspector) {k : Nat}
    (hk : k < i.elems.length) : i.elemAt k = (i.elems[k]).1 := by
  simp [Introspector.elemAt, List.getD, List.getElem?_eq_getElem hk]

/-- Result lists built by mapping positions through the element index. -/
theorem goodList_map_elemAt (i : Introspector) (hn : i.locs.Nodup)
    {idxs : List Nat} (hsorted : List.Sorted (· < ·) idxs)
    (hrange : ∀ k ∈ idxs, k < i.elems.length) :
    GoodList i (idxs.map i.elemAt) := by
  constructor
  · have heq : (idxs.map i.elemAt).map i.index = idxs := by
      rw [List.map_map]
      have : ∀ k ∈ idxs, (i.index ∘ i.elemAt) k = id k := fun k hk =>
        i.index_elemAt hn (hrange k hk)
      rw [List.map_congr_left this, List.map_id]
    rw [heq]
    exact hsorted
  · intro c hc
    obtain ⟨k, hk, rfl⟩ := List.mem_map.mp hc
    exact i.canon_elemAt hn (hrange k hk)

theorem Introspector.map_index_all (i : Introspector) (hn : i.locs.Nodup) :
    i.all.map i.index = List.range i.elems.length := by
  apply List.ext_getElem
  · simp [Introspector.all]
  · intro k h1 h2
    have hk : k < i.elems.length := by simpa [Introspector.all] using h1
    have hk' : k < i.all.length := by simpa [Introspector.all] using hk
    have hget : i.all[k] = i.elemAt k := by
      simp [Introspector.all, i.elemAt_eq_getElem hk]
    simp only [List.getElem_map, hget, List.getElem_range]
    exact i.index_elemAt hn hk

theorem goodList_all (i : Introspector) (hn : i.locs.Nodup) :
    GoodList i i.all := by
  constructor
  · rw [i.map_index_all hn]
    exact List.sorted_lt_range _
  · intro c hc
    obtain ⟨e, he, rfl⟩ := List.mem_map.mp hc
    obtain ⟨k, hk, hke⟩ := List.mem_iff_getElem.mp he
    have : i.elemAt k = e.1 := by rw [i.elemAt_eq_getElem hk, hke]
    rw [← this]
    exact i.canon_elemAt hn hk

/-! ## sortDedup and minLenIdx -/

theorem sortDedup_sorted (l : List Nat) : List.Sorted (· < ·) (sortDedup l) := by
  have h1 : List.Sorted (· ≤ ·) (l.insertionSort (· ≤ ·)) :=
    List.sorted_insertionSort _ l
  have h2 : List.Sorted (· ≤ ·) (sortDedup l) :=
    h1.sublist (List.dedup_sublist _)
  have h3 : (sortDedup l).Nodup := List.nodup_dedup _
  exact (h2.and h3).imp fun h => lt_of_le_of_ne h.1 h.2

theorem sortDedup_mem (l : List Nat) (a : Nat) : a ∈ sortDedup l ↔ a ∈ l := by
  unfold sortDedup
  rw [List.mem_dedup, List.mem_insertionSort]

theorem minLenIdx_lt_length {rs : List (List Content)} {k : Nat}
    (h : minLenIdx rs = some k) : k < rs.length := by
  induction rs generalizing k with
  | nil => simp [minLenIdx] at h
  | cons l ls ih =>
    rw [minLenIdx] at h
    cases hm : minLenIdx ls with
    | none =>
      rw [hm] at h
      dsimp only at h
      simp only [Option.some.injEq] at h
      simp only [List.length_cons]
      omega
    | some j =>
      rw [hm] at h
      dsimp only at h
      by_cases hlt : (ls.getD j []).length < l.length
      · rw [if_pos hlt] at h
        simp only [Option.some.injEq] at h
        have := ih hm
        simp only [List.length_cons]
        omega
      · rw [if_neg hlt] at h
        simp only [Option.some.injEq] at h
        simp only [List.length_cons]
        omega

/-! ## Query arm unfolding -/

theorem query_label_eq (env : MatchEnv) (i : Introspector) (l : String) :
    i.query env (.label l) = labelEval i l := rfl

theorem query_elem_eq (env : MatchEnv) (i : Introspector) (t : Nat) :
    i.query env (.elem t) = scanEval env i (.elem t) := rfl

theorem query_regex_eq (env : MatchEnv) (i : Introspector) (t : Nat) :
    i.query env (.regex t) = scanEval env i (.regex t) := rfl

theorem query_can_eq (env : MatchEnv) (i : Introspector) (t : Nat) :
    i.query env (.can t) = scanEval env i (.can t) := rfl

theorem query_location_eq (env : MatchEnv) (i : Introspector) (loc : Nat) :
    i.query env (.location loc) = locEval i loc := rfl

theorem query_before_eq (env : MatchEnv) (i : Introspector)
    (sel endSel : Selector) (inclusive : Bool) :
    i.query env (.before sel endSel inclusive) =
      (match i.queryFirst env endSel with
       | some c =>
         (i.query env sel).take (beforeSplit i (i.query env sel) c inclusive)
       | none => i.query env sel) := by
  cases endSel <;> rfl

theorem query_after_eq (env : MatchEnv) (i : Introspector)
    (sel startSel : Selector) (inclusive : Bool) :
    i.query env (.after sel startSel inclusive) =
      (match i.queryFirst env startSel with
       | some c =>
         (i.query env sel).drop (afterSplit i (i.query env sel) c inclusive)
       | none => i.query env sel) := by
  cases startSel <;> rfl

theorem queryMap_eq (env : MatchEnv) (i : Introspector) (sels : List Selector) :
    i.queryMap env sels = sels.map (i.query env) := by
  induction sels with
  | nil => rfl
  | cons s rest ih => rw [Introspector.queryMap, List.map_cons, ih]

theorem query_and_eq (env : MatchEnv) (i : Introspector) (sels : List Selector) :
    i.query env (.and sels) = andCombine i (sels.map (i.query env)) := by
  rw [← queryMap_eq]
  rfl

theorem query_or_eq (env : MatchEnv) (i : Introspector) (sels : List Selector) :
    i.query env (.or sels) = orCombine i (sels.map (i.query env)) := by
  rw [← queryMap_eq]
  rfl

/-! ## The master evaluation invariant -/

/-- A successful direct lookup yields a canonical snapshot with the looked-up
location. -/
theorem Introspector.canon_get? (i : Introspector) (hn : i.locs.Nodup)
    {loc : Nat} {c : Content} (h : i.get? loc = some c) : i.Canon c := by
  unfold Introspector.get? at h
  cases hf : i.elems.find? (fun e => e.1.loc == loc) with
  | none => rw [hf] at h; simp at h
  | some e =>
    rw [hf] at h
    simp only [Option.map_some', Option.some.injEq] at h
    have hmem : e ∈ i.elems := List.mem_of_find?_eq_some hf
    have hp : e.1.loc = loc := by
      have h2 := List.find?_some hf
      simpa using h2
    have hcl : c.loc = loc := by rw [← h]; exact hp
    obtain ⟨j, hj, hje⟩ := List.mem_iff_getElem.mp hmem
    have hj' : j < i.locs.length := by rw [i.locs_length]; exact hj
    have hlocj : i.locs[j] = c.loc := by
      simp [Introspector.locs, List.getElem_map, hje, ← h]
    have hmeml : c.loc ∈ i.locs := by rw [← hlocj]; exact List.getElem_mem hj'
    have hidx : i.index c = List.indexOf c.loc i.locs := by
      rw [Introspector.index, if_pos hmeml]
    have hidxlt : List.indexOf c.loc i.locs < i.locs.length :=
      List.indexOf_lt_length.mpr hmeml
    have hlocidx : i.locs[List.indexOf c.loc i.locs] = c.loc := by
      have := List.indexOf_get (h := hidxlt)
      simp only [List.get_eq_getElem] at this
      exact this
    have hjeq : List.indexOf c.loc i.locs = j := by
      have hinj := @List.Nodup.getElem_inj_iff _ _ hn _ hidxlt _ hj'
      exact hinj.mp (by rw [hlocidx, hlocj])
    constructor
    · rw [hidx, hjeq]; exact hj
    · rw [hidx, hjeq, i.elemAt_eq_getElem hj, hje, h]

theorem goodList_labelEval (i : Introspector) (hwf : i.WF) (l : String) :
    GoodList i (labelEval i l) := by
  unfold labelEval
  cases hlk : List.lookup l i.labelCache with
  | none => exact goodList_nil i
  | some indices =>
    obtain ⟨k, hk1, _⟩ := lookup_mem hlk
    exact goodList_map_elemAt i hwf.locsNodup (hwf.labelSorted _ hk1)
      (hwf.labelInRange _ hk1)

theorem goodList_locEval (i : Introspector) (hn : i.locs.Nodup) (loc : Nat) :
    GoodList i (locEval i loc) := by
  unfold locEval
  cases hg : i.get? loc with
  | none => exact goodList_nil i
  | some c =>
    refine ⟨by simp, ?_⟩
    intro c' hc'
    obtain rfl : c' = c := by simpa using hc'
    exact i.canon_get? hn hg

theorem goodList_andCombine (i : Introspector) {results : List (List Content)}
    (h : ∀ L ∈ results, GoodList i L) : GoodList i (andCombine i results) := by
  unfold andCombine
  cases hm : minLenIdx results with
  | none => exact goodList_nil i
  | some k =>
    have hk : k < results.length := minLenIdx_lt_length hm
    have hprobe : results.getD k [] ∈ results := by
      rw [List.getD_eq_getElem _ _ hk]
      exact List.getElem_mem hk
    exact (h _ hprobe).filter _

theorem goodList_orCombine (i : Introspector) (hn : i.locs.Nodup)
    {results : List (List Content)} (h : ∀ L ∈ results, GoodList i L) :
    GoodList i (orCombine i results) := by
  unfold orCombine
  refine goodList_map_elemAt i hn (sortDedup_sorted _) ?_
  intro k hk
  rw [sortDedup_mem] at hk
  obtain ⟨c, hc, rfl⟩ := List.mem_map.mp hk
  obtain ⟨L, hL, hcL⟩ := List.mem_flatten.mp hc
  exact ((h L hL).2 c hcL).1

/-- Every query result is strictly increasing in document index and consists
of canonical snapshots — the master invariant of the selector evaluator. -/
theorem goodList_query (env : MatchEnv) (i : Introspector) (hwf : i.WF) :
    ∀ s : Selector, GoodList i (i.query env s) := by
  have key : ∀ n : Nat, ∀ s : Selector, sizeOf s ≤ n → GoodList i (i.query env s) := by
    intro n
    induction n using Nat.strong_induction_on with
    | _ n ih =>
      intro s hs
      cases s with
      | label l => rw [query_label_eq]; exact goodList_labelEval i hwf l
      | elem t => rw [query_elem_eq]; exact (goodList_all i hwf.locsNodup).filter _
      | regex t => rw [query_regex_eq]; exact (goodList_all i hwf.locsNodup).filter _
      | can t => rw [query_can_eq]; exact (goodList_all i hwf.locsNodup).filter _
      | location loc => rw [query_location_eq]; exact goodList_locEval i hwf.locsNodup loc
      | before sel endSel inclusive =>
        rw [query_before_eq]
        have hsz : sizeOf sel < n := by
          have h := hs
          simp only [Selector.before.sizeOf_spec] at h
          omega
        have hsel : GoodList i (i.query env sel) :=
          ih (sizeOf sel) hsz sel le_rfl
        cases i.queryFirst env endSel with
        | some c => exact hsel.take _
        | none => exact hsel
      | after sel startSel inclusive =>
        rw [query_after_eq]
        have hsz : sizeOf sel < n := by
          have h := hs
          simp only [Selector.after.sizeOf_spec] at h
          omega
        have hsel : GoodList i (i.query env sel) :=
          ih (sizeOf sel) hsz sel le_rfl
        cases i.queryFirst env startSel with
        | some c => exact hsel.drop _
        | none => exact hsel
      | and sels =>
        rw [query_and_eq]
        refine goodList_andCombine i ?_
        intro L hL
        obtain ⟨s', hs', rfl⟩ := List.mem_map.mp hL
        have hsz : sizeOf s' < n := by
          have hlt := List.sizeOf_lt_of_mem hs'
          have h := hs
          simp only [Selector.and.sizeOf_spec] at h
          omega
        exact ih (sizeOf s') hsz s' le_rfl
      | or sels =>
        rw [query_or_eq]
        refine goodList_orCombine i hwf.locsNodup ?_
        intro L hL
        obtain ⟨s', hs', rfl⟩ := List.mem_map.mp hL
        have hsz : sizeOf s' < n := by
          have hlt := List.sizeOf_lt_of_mem hs'
          have h := hs
          simp only [Selector.or.sizeOf_spec] at h
          omega
        exact ih (sizeOf s') hsz s' le_rfl
  exact fun s => key (sizeOf s) s le_rfl

/-! ## Construction invariants -/

theorem insertElem_pageNumberings (i : Introspector) (c : Content) (pos : Position) :
    (insertElem i c pos).pageNumberings = i.pageNumberings := by
  unfold insertElem
  split
  · rfl
  · cases c.label <;> rfl

theorem insertElem_elems (i : Introspector) (c : Content) (pos : Position) :
    (insertElem i c pos).elems =
      if i.containsKey c.loc then i.elems else i.elems ++ [(c, pos)] := by
  unfold insertElem
  split
  · rfl
  · cases c.label <;> rfl

theorem pushLabel_cases (l : String) (idx : Nat) :
    ∀ (cache : List (String × List Nat)), ∀ p ∈ pushLabel cache l idx,
      p ∈ cache ∨ (∃ v, (l, v) ∈ cache ∧ p = (l, v ++ [idx])) ∨ p = (l, [idx]) := by
  intro cache
  induction cache with
  | nil =>
    intro p hp
    simp only [pushLabel, List.mem_singleton] at hp
    exact Or.inr (Or.inr hp)
  | cons e rest ih =>
    obtain ⟨k, v⟩ := e
    intro p hp
    rw [pushLabel] at hp
    by_cases hk : (k == l) = true
    · rw [if_pos hk] at hp
      obtain rfl : k = l := eq_of_beq hk
      rcases List.mem_cons.mp hp with rfl | hp'
      · exact Or.inr (Or.inl ⟨v, List.mem_cons_self _ _, rfl⟩)
      · exact Or.inl (List.mem_cons_of_mem _ hp')
    · rw [if_neg hk] at hp
      rcases List.mem_cons.mp hp with rfl | hp'
      · exact Or.inl (List.mem_cons_self _ _)
      · rcases ih p hp' with h1 | ⟨v', hv1, hv2⟩ | h3
        · exact Or.inl (List.mem_cons_of_mem _ h1)
        · exact Or.inr (Or.inl ⟨v', List.mem_cons_of_mem _ hv1, hv2⟩)
        · exact Or.inr (Or.inr h3)

theorem wf_insertElem {i : Introspector} (hwf : i.WF) (c : Content)
    (pos : Position) : (insertElem i c pos).WF := by
  unfold insertElem
  split
  next => exact hwf
  next hck =>
    have hnotin : c.loc ∉ i.locs := by
      intro hmem
      apply hck
      obtain ⟨e, he, heq⟩ := List.mem_map.mp hmem
      unfold Introspector.containsKey
      rw [List.any_eq_true]
      exact ⟨e, he, by simp [heq]⟩
    have hlocs : ∀ lc' pn',
        (Introspector.mk i.pages (i.elems ++ [(c, pos)]) pn' lc').locs =
          i.locs ++ [c.loc] := by
      intro lc' pn'
      simp [Introspector.locs]
    have hnodup : (i.locs ++ [c.loc]).Nodup := by
      rw [← List.concat_eq_append]
      exact List.Nodup.concat hnotin hwf.locsNodup
    have hlen : (i.elems ++ [(c, pos)]).length = i.elems.length + 1 := by
      simp
    have helemAtOld : ∀ lc' pn' k, k < i.elems.length →
        (Introspector.mk i.pages (i.elems ++ [(c, pos)]) pn' lc').elemAt k =
          i.elemAt k := by
      intro lc' pn' k hk
      show ((i.elems ++ [(c, pos)]).getD k default).1 = (i.elems.getD k default).1
      rw [List.getD_append _ _ _ _ hk]
    have helemAtNew : ∀ lc' pn',
        (Introspector.mk i.pages (i.elems ++ [(c, pos)]) pn' lc').elemAt
          i.elems.length = c := by
      intro lc' pn'
      show ((i.elems ++ [(c, pos)]).getD i.elems.length default).1 = c
      rw [List.getD_append_right _ _ _ _ le_rfl, Nat.sub_self]
      rfl
    cases hcl : c.label with
    | none =>
      refine ⟨?_, ?_, ?_, ?_, ?_⟩
      · rw [hlocs]; exact hnodup
      · exact hwf.labelSorted
      · intro p hp k hk
        have := hwf.labelInRange p hp k hk
        simp only [hlen]
        omega
      · exact hwf.labelNonempty
      · intro p hp k hk
        rw [helemAtOld _ _ k (hwf.labelInRange p hp k hk)]
        exact hwf.labelCorrect p hp k hk
    | some l =>
      have hidx : (i.elems ++ [(c, pos)]).length - 1 = i.elems.length := by simp
      show (Introspector.mk i.pages (i.elems ++ [(c, pos)]) i.pageNumberings
        (pushLabel i.labelCache l ((i.elems ++ [(c, pos)]).length - 1))).WF
      rw [hidx]
      refine ⟨?_, ?_, ?_, ?_, ?_⟩
      · rw [hlocs]; exact hnodup
      · intro p hp
        rcases pushLabel_cases l _ _ p hp with h1 | ⟨v, hv1, rfl⟩ | rfl
        · exact hwf.labelSorted p h1
        · rw [List.Sorted, List.pairwise_append]
          refine ⟨hwf.labelSorted _ hv1, List.pairwise_singleton _ _, ?_⟩
          intro a ha b hb
          obtain rfl : b = i.elems.length := List.mem_singleton.mp hb
          exact hwf.labelInRange _ hv1 a ha
        · exact List.sorted_singleton _
      · intro p hp k hk
        simp only [hlen]
        rcases pushLabel_cases l _ _ p hp with h1 | ⟨v, hv1, rfl⟩ | rfl
        · have := hwf.labelInRange p h1 k hk
          omega
        · rcases List.mem_append.mp hk with hk1 | hk2
          · have := hwf.labelInRange _ hv1 k hk1
            omega
          · obtain rfl := List.mem_singleton.mp hk2
            omega
        · obtain rfl := List.mem_singleton.mp hk
          omega
      · intro p hp
        rcases pushLabel_cases l _ _ p hp with h1 | ⟨v, hv1, rfl⟩ | rfl
        · exact hwf.labelNonempty p h1
        · simp
        · simp
      · intro p hp k hk
        rcases pushLabel_cases l _ _ p hp with h1 | ⟨v, hv1, rfl⟩ | rfl
        · rw [helemAtOld _ _ k (hwf.labelInRange p h1 k hk)]
          exact hwf.labelCorrect p h1 k hk
        · rcases List.mem_append.mp hk with hk1 | hk2
          · rw [helemAtOld _ _ k (hwf.labelInRange _ hv1 k hk1)]
            exact hwf.labelCorrect _ hv1 k hk1
          · obtain rfl := List.mem_singleton.mp hk2
            rw [helemAtNew]
            exact hcl
        · obtain rfl := List.mem_singleton.mp hk
          rw [helemAtNew]
          exact hcl

theorem wf_update_pageNumberings {i : Introspector} (hwf : i.WF)
    (pn : List (Option Nat)) :
    (Introspector.mk i.pages i.elems pn i.labelCache).WF :=
  ⟨hwf.locsNodup, hwf.labelSorted, hwf.labelInRange, hwf.labelNonempty,
    hwf.labelCorrect⟩

mutual

theorem wf_extract :
    ∀ (i : Introspector) (frame : Frame) (page : Nat) (ts : Transform),
      i.WF → (extract i frame page ts).WF
  | i, [], page, ts, hwf => by
    rw [extract]
    exact hwf
  | i, (pos, item) :: rest, page, ts, hwf => by
    rw [extract]
    exact wf_extract _ rest page ts (wf_extractItem i pos item page ts hwf)

theorem wf_extractItem :
    ∀ (i : Introspector) (pos : Point) (item : FrameItem) (page : Nat)
      (ts : Transform), i.WF → (extractItem i pos item page ts).WF
  | i, pos, .group gframe gts, page, ts, hwf => by
    rw [extractItem]
    exact wf_extract i gframe page _ hwf
  | i, pos, .elem c, page, ts, hwf => by
    rw [extractItem]
    exact wf_insertElem hwf c _
  | i, pos, .pageNumbering n, page, ts, hwf => by
    rw [extractItem]
    exact wf_update_pageNumberings hwf _
  | i, pos, .other, page, ts, hwf => by
    rw [extractItem]
    exact hwf

end

theorem wf_extractPages (i : Introspector) (frames : List Frame) (page : Nat)
    (hwf : i.WF) : (extractPages i frames page).WF := by
  induction frames generalizing i page with
  | nil => exact hwf
  | cons f rest ih =>
    rw [extractPages]
    exact ih _ _ (wf_extract i f page Transform.identity hwf)


/-- Every built index is well formed. -/
theorem wf_introspectorNew (frames : List Frame) : (introspectorNew frames).WF := by
  refine wf_extractPages _ frames 1 ?_
  constructor <;> simp [Introspector.locs]

/-! ## Page-numbering bookkeeping -/

mutual

theorem extract_pageNumberings :
    ∀ (i : Introspector) (frame : Frame) (page : Nat) (ts : Transform),
      (extract i frame page ts).pageNumberings =
        i.pageNumberings ++ frameNumberings frame
  | i, [], page, ts => by
    rw [extract]
    simp [frameNumberings]
  | i, (pos, item) :: rest, page, ts => by
    rw [extract, extract_pageNumberings _ rest page ts,
      extractItem_pageNumberings i pos item page ts, frameNumberings]
    simp [List.append_assoc]

theorem extractItem_pageNumberings :
    ∀ (i : Introspector) (pos : Point) (item : FrameItem) (page : Nat)
      (ts : Transform),
      (extractItem i pos item page ts).pageNumberings =
        i.pageNumberings ++ itemNumberings item
  | i, pos, .group gframe gts, page, ts => by
    rw [extractItem, itemNumberings]
    exact extract_pageNumberings i gframe page _
  | i, pos, .elem c, page, ts => by
    rw [extractItem, insertElem_pageNumberings]
    show i.pageNumberings = i.pageNumberings ++ ([] : List (Option Nat))
    simp
  | i, pos, .pageNumbering n, page, ts => by
    rw [extractItem]
    rfl
  | i, pos, .other, page, ts => by
    rw [extractItem]
    show i.pageNumberings = i.pageNumberings ++ ([] : List (Option Nat))
    simp

end

theorem extractPages_pageNumberings (i : Introspector) (frames : List Frame)
    (page : Nat) :
    (extractPages i frames page).pageNumberings =
      i.pageNumberings ++ (frames.map frameNumberings).flatten := by
  induction frames generalizing i page with
  | nil => simp [extractPages]
  | cons f rest ih =>
    rw [extractPages, ih, extract_pageNumberings]
    simp [List.append_assoc]

/-- The page-numbering list of a built index is the global walk-order
concatenation of all page-numbering marker values. -/
theorem introspectorNew_pageNumberings (frames : List Frame) :
    (introspectorNew frames).pageNumberings =
      (frames.map frameNumberings).flatten := by
  rw [introspectorNew, extractPages_pageNumberings]
  rfl

/-! ## Intersection commutativity -/

theorem binarySearch_isFound_iff (i : Introspector) {L : List Content}
    (c : Content) (hs : List.Sorted (· < ·) (L.map i.index)) :
    (i.binarySearch L c).isFound = true ↔ i.index c ∈ L.map i.index := by
  have hspec := i.binarySearch_spec c hs
  cases h : i.binarySearch L c with
  | found k =>
    rw [h] at hspec
    obtain ⟨hk, hfk⟩ := hspec
    have hfk2 : i.index (L.getD k default) = i.index c := hfk
    simp only [SearchOutcome.isFound, true_iff]
    rw [← hfk2, List.getD_eq_getElem _ _ hk]
    exact List.mem_map_of_mem _ (List.getElem_mem hk)
  | missing k =>
    rw [h] at hspec
    obtain ⟨hk, hbelow, habove⟩ := hspec
    simp only [SearchOutcome.isFound, Bool.false_eq_true, false_iff]
    intro hmem
    obtain ⟨c', hc', heq⟩ := List.mem_map.mp hmem
    obtain ⟨j, hj, hje⟩ := List.mem_iff_getElem.mp hc'
    have hj2 : i.index (L.getD j default) = i.index c := by
      rw [List.getD_eq_getElem _ _ hj, hje, heq]
    rcases Nat.lt_or_ge j k with hlt | hge
    · have h3 : i.index (L.getD j default) < i.index c := hbelow j hlt
      omega
    · have h3 : i.index c < i.index (L.getD j default) := habove j hge hj
      omega

theorem nodup_of_sorted_lt {l : List Nat} (h : List.Sorted (· < ·) l) :
    l.Nodup :=
  h.imp fun hab => Nat.ne_of_lt hab

/-- Filtering two strictly sorted lists by membership in each other is
symmetric. -/
theorem sorted_filter_comm {xs ys : List Nat}
    (hx : List.Sorted (· < ·) xs) (hy : List.Sorted (· < ·) ys) :
    xs.filter (fun a => decide (a ∈ ys)) = ys.filter (fun a => decide (a ∈ xs)) := by
  have hx2 : List.Sorted (· < ·) (xs.filter (fun a => decide (a ∈ ys))) :=
    hx.filter _
  have hy2 : List.Sorted (· < ·) (ys.filter (fun a => decide (a ∈ xs))) :=
    hy.filter _
  have hperm : List.Perm (xs.filter (fun a => decide (a ∈ ys)))
      (ys.filter (fun a => decide (a ∈ xs))) := by
    rw [List.perm_ext_iff_of_nodup (nodup_of_sorted_lt hx2) (nodup_of_sorted_lt hy2)]
    intro a
    simp only [List.mem_filter, decide_eq_true_eq]
    exact ⟨fun hh => ⟨hh.2, hh.1⟩, fun hh => ⟨hh.2, hh.1⟩⟩
  exact List.eq_of_perm_of_sorted hperm
    (hx2.imp fun hab => Nat.le_of_lt hab)
    (hy2.imp fun hab => Nat.le_of_lt hab)

/-- A canonical sorted list is recovered from its document indices. -/
theorem goodList_eq_map (i : Introspector) {L : List Content}
    (h : GoodList i L) : L = (L.map i.index).map i.elemAt := by
  rw [List.map_map]
  conv_lhs => rw [← List.map_id L]
  exact List.map_congr_left fun c hc => ((h.2 c hc).2).symm

theorem filter_mem_comm (i : Introspector) {A B : List Content}
    (hA : GoodList i A) (hB : GoodList i B) :
    A.filter (fun c => decide (i.index c ∈ B.map i.index)) =
      B.filter (fun c => decide (i.index c ∈ A.map i.index)) := by
  have key : ∀ (C D : List Content), GoodList i C → GoodList i D →
      C.filter (fun c => decide (i.index c ∈ D.map i.index)) =
        ((C.map i.index).filter
          (fun a => decide (a ∈ D.map i.index))).map i.elemAt := by
    intro C D hC hD
    conv_lhs => rw [goodList_eq_map i hC]
    rw [List.filter_map]
    congr 1
    apply List.filter_congr
    intro a ha
    obtain ⟨c, hc, rfl⟩ := List.mem_map.mp ha
    have hcanon := hC.2 c hc
    rw [Function.comp_apply, hcanon.2]
  rw [key A B hA hB, key B A hB hA, sorted_filter_comm hA.1 hB.1]

/-- The binary-search membership filter of the `And` arm, rewritten to a
membership test. -/
theorem and_filter_eq (i : Introspector) {C D : List Content}
    (hD : List.Sorted (· < ·) (D.map i.index)) :
    (C.filter fun cand =>
        [D].all fun other => (i.binarySearch other cand).isFound) =
      C.filter fun cand => decide (i.index cand ∈ D.map i.index) := by
  apply List.filter_congr
  intro c _
  simp only [List.all_cons, List.all_nil, Bool.and_true]
  have hiff := binarySearch_isFound_iff i c hD
  cases hbool : (i.binarySearch D c).isFound
  · rw [hbool] at hiff
    symm
    rw [decide_eq_false_iff_not]
    intro hmem
    exact absurd (hiff.mpr hmem) (by simp)
  · rw [hbool] at hiff
    symm
    rw [decide_eq_true_eq]
    exact hiff.mp rfl

/-- Commutativity of the binary `And` combination on well-formed results. -/
theorem andCombine_pair_comm (i : Introspector) {A B : List Content}
    (hA : GoodList i A) (hB : GoodList i B) :
    andCombine i [A, B] = andCombine i [B, A] := by
  have hminAB : minLenIdx [A, B] =
      if B.length < A.length then some 1 else some 0 := rfl
  have hminBA : minLenIdx [B, A] =
      if A.length < B.length then some 1 else some 0 := rfl
  by_cases hBA : B.length < A.length
  · have h1 : andCombine i [A, B] =
        B.filter (fun cand => [A].all fun other => (i.binarySearch other cand).isFound) := by
      unfold andCombine
      rw [hminAB, if_pos hBA]
      rfl
    have h2 : andCombine i [B, A] =
        B.filter (fun cand => [A].all fun other => (i.binarySearch other cand).isFound) := by
      unfold andCombine
      rw [hminBA, if_neg (by omega)]
      rfl
    rw [h1, h2]
  · by_cases hAB : A.length < B.length
    · have h1 : andCombine i [A, B] =
          A.filter (fun cand => [B].all fun other => (i.binarySearch other cand).isFound) := by
        unfold andCombine
        rw [hminAB, if_neg hBA]
        rfl
      have h2 : andCombine i [B, A] =
          A.filter (fun cand => [B].all fun other => (i.binarySearch other cand).isFound) := by
        unfold andCombine
        rw [hminBA, if_pos hAB]
        rfl
      rw [h1, h2]
    · have h1 : andCombine i [A, B] =
          A.filter (fun cand => [B].all fun other => (i.binarySearch other cand).isFound) := by
        unfold andCombine
        rw [hminAB, if_neg hBA]
        rfl
      have h2 : andCombine i [B, A] =
          B.filter (fun cand => [A].all fun other => (i.binarySearch other cand).isFound) := by
        unfold andCombine
        rw [hminBA, if_neg hAB]
        rfl
      rw [h1, h2, and_filter_eq i hB.1, and_filter_eq i hA.1]
      exact filter_mem_comm i hA hB

/-! ## Selector structural equality -/

theorem selector_beq_sound :
    ∀ n : Nat,
      (∀ a b : Selector, sizeOf a ≤ n → Selector.beq a b = true → a = b) ∧
      (∀ xs ys : List Selector, sizeOf xs ≤ n →
        Selector.beqList xs ys = true → xs = ys) := by
  intro n
  induction n using Nat.strong_induction_on with
  | _ n ih =>
    constructor
    · intro a b hs hbeq
      cases a with
      | label x =>
        cases b <;> simp [Selector.beq] at hbeq
        rw [hbeq]
      | elem x =>
        cases b <;> simp [Selector.beq] at hbeq
        rw [hbeq]
      | regex x =>
        cases b <;> simp [Selector.beq] at hbeq
        rw [hbeq]
      | can x =>
        cases b <;> simp [Selector.beq] at hbeq
        rw [hbeq]
      | location x =>
        cases b <;> simp [Selector.beq] at hbeq
        rw [hbeq]
      | before s1 e1 i1 =>
        have hsz1 : sizeOf s1 < n := by
          have h := hs
          simp only [Selector.before.sizeOf_spec] at h
          omega
        have hsz2 : sizeOf e1 < n := by
          have h := hs
          simp only [Selector.before.sizeOf_spec] at h
          omega
        cases b <;> simp [Selector.beq] at hbeq
        obtain ⟨⟨hb1, hb2⟩, hb3⟩ := hbeq
        obtain rfl := (ih _ hsz1).1 s1 _ le_rfl hb1
        obtain rfl := (ih _ hsz2).1 e1 _ le_rfl hb2
        rw [hb3]
      | after s1 e1 i1 =>
        have hsz1 : sizeOf s1 < n := by
          have h := hs
          simp only [Selector.after.sizeOf_spec] at h
          omega
        have hsz2 : sizeOf e1 < n := by
          have h := hs
          simp only [Selector.after.sizeOf_spec] at h
          omega
        cases b <;> simp [Selector.beq] at hbeq
        obtain ⟨⟨hb1, hb2⟩, hb3⟩ := hbeq
        obtain rfl := (ih _ hsz1).1 s1 _ le_rfl hb1
        obtain rfl := (ih _ hsz2).1 e1 _ le_rfl hb2
        rw [hb3]
      | and xs =>
        have hsz : sizeOf xs < n := by
          have h := hs
          simp only [Selector.and.sizeOf_spec] at h
          omega
        cases b <;> simp [Selector.beq] at hbeq
        obtain rfl := (ih _ hsz).2 xs _ le_rfl hbeq
        rfl
      | or xs =>
        have hsz : sizeOf xs < n := by
          have h := hs
          simp only [Selector.or.sizeOf_spec] at h
          omega
        cases b <;> simp [Selector.beq] at hbeq
        obtain rfl := (ih _ hsz).2 xs _ le_rfl hbeq
        rfl
    · intro xs ys hs hbeq
      cases xs with
      | nil =>
        cases ys with
        | nil => rfl
        | cons y ys2 => simp [Selector.beqList] at hbeq
      | cons x xs2 =>
        cases ys with
        | nil => simp [Selector.beqList] at hbeq
        | cons y ys2 =>
          simp only [Selector.beqList, Bool.and_eq_true] at hbeq
          obtain ⟨hb1, hb2⟩ := hbeq
          have hsz1 : sizeOf x < n := by
            have h := hs
            simp only [List.cons.sizeOf_spec] at h
            omega
          have hsz2 : sizeOf xs2 < n := by
            have h := hs
            simp only [List.cons.sizeOf_spec] at h
            omega
          obtain rfl := (ih _ hsz1).1 x y le_rfl hb1
          obtain rfl := (ih _ hsz2).2 xs2 ys2 le_rfl hb2
          rfl

theorem selector_eq_of_beq {a b : Selector} (h : (a == b) = true) : a = b :=
  (selector_beq_sound (sizeOf a)).1 a b le_rfl h

/-! ## Cache transparency -/

theorem queryC_hit (env : MatchEnv) (i : Introspector) (s : Selector)
    (cache : Cache) {out : List Content}
    (h : List.lookup s cache = some out) :
    i.queryC env s cache = (out, cache) := by
  cases s <;> rw [Introspector.queryC, h]

theorem queryC_label_reduce (env : MatchEnv) (i : Introspector) (l : String)
    (cache : Cache) (h : List.lookup (Selector.label l) cache = none) :
    i.queryC env (.label l) cache =
      (labelEval i l, (Selector.label l, labelEval i l) :: cache) := by
  rw [Introspector.queryC, h]

theorem queryC_elem_reduce (env : MatchEnv) (i : Introspector) (t : Nat)
    (cache : Cache) (h : List.lookup (Selector.elem t) cache = none) :
    i.queryC env (.elem t) cache =
      (scanEval env i (.elem t),
       (Selector.elem t, scanEval env i (.elem t)) :: cache) := by
  rw [Introspector.queryC, h]

theorem queryC_regex_reduce (env : MatchEnv) (i : Introspector) (t : Nat)
    (cache : Cache) (h : List.lookup (Selector.regex t) cache = none) :
    i.queryC env (.regex t) cache =
      (scanEval env i (.regex t),
       (Selector.regex t, scanEval env i (.regex t)) :: cache) := by
  rw [Introspector.queryC, h]

theorem queryC_can_reduce (env : MatchEnv) (i : Introspector) (t : Nat)
    (cache : Cache) (h : List.lookup (Selector.can t) cache = none) :
    i.queryC env (.can t) cache =
      (scanEval env i (.can t),
       (Selector.can t, scanEval env i (.can t)) :: cache) := by
  rw [Introspector.queryC, h]

theorem queryC_location_reduce (env : MatchEnv) (i : Introspector) (loc : Nat)
    (cache : Cache) (h : List.lookup (Selector.location loc) cache = none) :
    i.queryC env (.location loc) cache =
      (locEval i loc, (Selector.location loc, locEval i loc) :: cache) := by
  rw [Introspector.queryC, h]

theorem queryC_before_reduce (env : MatchEnv) (i : Introspector)
    (sel endSel : Selector) (inclusive : Bool) (cache : Cache)
    (h : List.lookup (Selector.before sel endSel inclusive) cache = none) :
    i.queryC env (.before sel endSel inclusive) cache =
      ((beforeRC env i sel endSel inclusive cache).1,
       (Selector.before sel endSel inclusive,
        (beforeRC env i sel endSel inclusive cache).1) ::
         (beforeRC env i sel endSel inclusive cache).2) := by
  cases endSel <;> rw [Introspector.queryC, h] <;> rfl

theorem queryC_after_reduce (env : MatchEnv) (i : Introspector)
    (sel startSel : Selector) (inclusive : Bool) (cache : Cache)
    (h : List.lookup (Selector.after sel startSel inclusive) cache = none) :
    i.queryC env (.after sel startSel inclusive) cache =
      ((afterRC env i sel startSel inclusive cache).1,
       (Selector.after sel startSel inclusive,
        (afterRC env i sel startSel inclusive cache).1) ::
         (afterRC env i sel startSel inclusive cache).2) := by
  cases startSel <;> rw [Introspector.queryC, h] <;> rfl

theorem queryC_and_reduce (env : MatchEnv) (i : Introspector)
    (sels : List Selector) (cache : Cache)
    (h : List.lookup (Selector.and sels) cache = none) :
    i.queryC env (.and sels) cache =
      (andCombine i (i.queryAll env sels cache).1,
       (Selector.and sels, andCombine i (i.queryAll env sels cache).1) ::
         (i.queryAll env sels cache).2) := by
  rw [Introspector.queryC, h]

theorem queryC_or_reduce (env : MatchEnv) (i : Introspector)
    (sels : List Selector) (cache : Cache)
    (h : List.lookup (Selector.or sels) cache = none) :
    i.queryC env (.or sels) cache =
      (orCombine i (i.queryAll env sels cache).1,
       (Selector.or sels, orCombine i (i.queryAll env sels cache).1) ::
         (i.queryAll env sels cache).2) := by
  rw [Introspector.queryC, h]

/-- The memoized evaluator agrees with the pure evaluator and preserves cache
validity: on any cache whose entries all record pure query results, `queryC`
returns exactly the pure `query` result (hit or miss) and leaves only valid
entries behind. -/
theorem queryC_sound :
    ∀ n : Nat,
      (∀ (env : MatchEnv) (i : Introspector) (s : Selector) (cache : Cache),
        sizeOf s ≤ n → (∀ p ∈ cache, p.2 = i.query env p.1) →
        (i.queryC env s cache).1 = i.query env s ∧
          ∀ p ∈ (i.queryC env s cache).2, p.2 = i.query env p.1) ∧
      (∀ (env : MatchEnv) (i : Introspector) (sels : List Selector)
        (cache : Cache),
        sizeOf sels ≤ n → (∀ p ∈ cache, p.2 = i.query env p.1) →
        (i.queryAll env sels cache).1 = sels.map (i.query env) ∧
          ∀ p ∈ (i.queryAll env sels cache).2, p.2 = i.query env p.1) := by
  intro n
  induction n using Nat.strong_induction_on with
  | _ n ih =>
    constructor
    · intro env i s cache hs hvalid
      cases hlk : List.lookup s cache with
      | some out =>
        rw [queryC_hit env i s cache hlk]
        refine ⟨?_, hvalid⟩
        obtain ⟨k, hk1, hk2⟩ := lookup_mem hlk
        obtain rfl : s = k := selector_eq_of_beq hk2
        exact hvalid _ hk1
      | none =>
        cases s with
        | label l =>
          rw [queryC_label_reduce env i l cache hlk]
          refine ⟨rfl, ?_⟩
          intro p hp
          rcases List.mem_cons.mp hp with rfl | hp'
          · rfl
          · exact hvalid p hp'
        | elem t =>
          rw [queryC_elem_reduce env i t cache hlk]
          refine ⟨rfl, ?_⟩
          intro p hp
          rcases List.mem_cons.mp hp with rfl | hp'
          · rfl
          · exact hvalid p hp'
        | regex t =>
          rw [queryC_regex_reduce env i t cache hlk]
          refine ⟨rfl, ?_⟩
          intro p hp
          rcases List.mem_cons.mp hp with rfl | hp'
          · rfl
          · exact hvalid p hp'
        | can t =>
          rw [queryC_can_reduce env i t cache hlk]
          refine ⟨rfl, ?_⟩
          intro p hp
          rcases List.mem_cons.mp hp with rfl | hp'
          · rfl
          · exact hvalid p hp'
        | location loc =>
          rw [queryC_location_reduce env i loc cache hlk]
          refine ⟨rfl, ?_⟩
          intro p hp
          rcases List.mem_cons.mp hp with rfl | hp'
          · rfl
          · exact hvalid p hp'
        | before sel endSel inclusive =>
          have hszSel : sizeOf sel < n := by
            have h := hs
            simp only [Selector.before.sizeOf_spec] at h
            omega
          have hszEnd : sizeOf endSel < n := by
            have h := hs
            simp only [Selector.before.sizeOf_spec] at h
            omega
          obtain ⟨hP1, hP2⟩ := (ih _ hszSel).1 env i sel cache le_rfl hvalid
          have hbnd : ∀ cc : Cache, (∀ p ∈ cc, p.2 = i.query env p.1) →
              (boundaryC env i endSel cc).1 = i.queryFirst env endSel ∧
                ∀ p ∈ (boundaryC env i endSel cc).2, p.2 = i.query env p.1 := by
            intro cc hcc
            cases endSel with
            | location loc => exact ⟨rfl, hcc⟩
            | label l =>
              obtain ⟨h1, h2⟩ := (ih _ hszEnd).1 env i (Selector.label l) cc le_rfl hcc
              refine ⟨?_, h2⟩
              show (i.queryC env (Selector.label l) cc).1.head? =
                i.queryFirst env (Selector.label l)
              rw [h1]
              rfl
            | elem t =>
              obtain ⟨h1, h2⟩ := (ih _ hszEnd).1 env i (Selector.elem t) cc le_rfl hcc
              refine ⟨?_, h2⟩
              show (i.queryC env (Selector.elem t) cc).1.head? =
                i.queryFirst env (Selector.elem t)
              rw [h1]
              rfl
            | regex t =>
              obtain ⟨h1, h2⟩ := (ih _ hszEnd).1 env i (Selector.regex t) cc le_rfl hcc
              refine ⟨?_, h2⟩
              show (i.queryC env (Selector.regex t) cc).1.head? =
                i.queryFirst env (Selector.regex t)
              rw [h1]
              rfl
            | can t =>
              obtain ⟨h1, h2⟩ := (ih _ hszEnd).1 env i (Selector.can t) cc le_rfl hcc
              refine ⟨?_, h2⟩
              show (i.queryC env (Selector.can t) cc).1.head? =
                i.queryFirst env (Selector.can t)
              rw [h1]
              rfl
            | before a b c =>
              obtain ⟨h1, h2⟩ := (ih _ hszEnd).1 env i (Selector.before a b c) cc le_rfl hcc
              refine ⟨?_, h2⟩
              show (i.queryC env (Selector.before a b c) cc).1.head? =
                i.queryFirst env (Selector.before a b c)
              rw [h1]
              rfl
            | after a b c =>
              obtain ⟨h1, h2⟩ := (ih _ hszEnd).1 env i (Selector.after a b c) cc le_rfl hcc
              refine ⟨?_, h2⟩
              show (i.queryC env (Selector.after a b c) cc).1.head? =
                i.queryFirst env (Selector.after a b c)
              rw [h1]
              rfl
            | and xs =>
              obtain ⟨h1, h2⟩ := (ih _ hszEnd).1 env i (Selector.and xs) cc le_rfl hcc
              refine ⟨?_, h2⟩
              show (i.queryC env (Selector.and xs) cc).1.head? =
                i.queryFirst env (Selector.and xs)
              rw [h1]
              rfl
            | or xs =>
              obtain ⟨h1, h2⟩ := (ih _ hszEnd).1 env i (Selector.or xs) cc le_rfl hcc
              refine ⟨?_, h2⟩
              show (i.queryC env (Selector.or xs) cc).1.head? =
                i.queryFirst env (Selector.or xs)
              rw [h1]
              rfl
          obtain ⟨hb1, hb2⟩ := hbnd _ hP2
          rw [queryC_before_reduce env i sel endSel inclusive cache hlk]
          have hfst : (beforeRC env i sel endSel inclusive cache).1 =
              i.query env (.before sel endSel inclusive) := by
            rw [query_before_eq, beforeRC, hb1]
            cases i.queryFirst env endSel with
            | some c => simp only [hP1]
            | none => simp only [hP1]
          have hsnd : (beforeRC env i sel endSel inclusive cache).2 =
              (boundaryC env i endSel (i.queryC env sel cache).2).2 := by
            rw [beforeRC]
            cases (boundaryC env i endSel (i.queryC env sel cache).2).1 <;> rfl
          refine ⟨hfst, ?_⟩
          intro p hp
          rcases List.mem_cons.mp hp with rfl | hp'
          · exact hfst
          · rw [hsnd] at hp'
            exact hb2 p hp'
        | after sel startSel inclusive =>
          have hszSel : sizeOf sel < n := by
            have h := hs
            simp only [Selector.after.sizeOf_spec] at h
            omega
          have hszEnd : sizeOf startSel < n := by
            have h := hs
            simp only [Selector.after.sizeOf_spec] at h
            omega
          obtain ⟨hP1, hP2⟩ := (ih _ hszSel).1 env i sel cache le_rfl hvalid
          have hbnd : ∀ cc : Cache, (∀ p ∈ cc, p.2 = i.query env p.1) →
              (boundaryC env i startSel cc).1 = i.queryFirst env startSel ∧
                ∀ p ∈ (boundaryC env i startSel cc).2, p.2 = i.query env p.1 := by
            intro cc hcc
            cases startSel with
            | location loc => exact ⟨rfl, hcc⟩
            | label l =>
              obtain ⟨h1, h2⟩ := (ih _ hszEnd).1 env i (Selector.label l) cc le_rfl hcc
              refine ⟨?_, h2⟩
              show (i.queryC env (Selector.label l) cc).1.head? =
                i.queryFirst env (Selector.label l)
              rw [h1]
              rfl
            | elem t =>
              obtain ⟨h1, h2⟩ := (ih _ hszEnd).1 env i (Selector.elem t) cc le_rfl hcc
              refine ⟨?_, h2⟩
              show (i.queryC env (Selector.elem t) cc).1.head? =
                i.queryFirst env (Selector.elem t)
              rw [h1]
              rfl
            | regex t =>
              obtain ⟨h1, h2⟩ := (ih _ hszEnd).1 env i (Selector.regex t) cc le_rfl hcc
              refine ⟨?_, h2⟩
              show (i.queryC env (Selector.regex t) cc).1.head? =
                i.queryFirst env (Selector.regex t)
              rw [h1]
              rfl
            | can t =>
              obtain ⟨h1, h2⟩ := (ih _ hszEnd).1 env i (Selector.can t) cc le_rfl hcc
              refine ⟨?_, h2⟩
              show (i.queryC env (Selector.can t) cc).1.head? =
                i.queryFirst env (Selector.can t)
              rw [h1]
              rfl
            | before a b c =>
              obtain ⟨h1, h2⟩ := (ih _ hszEnd).1 env i (Selector.before a b c) cc le_rfl hcc
              refine ⟨?_, h2⟩
              show (i.queryC env (Selector.before a b c) cc).1.head? =
                i.queryFirst env (Selector.before a b c)
              rw [h1]
              rfl
            | after a b c =>
              obtain ⟨h1, h2⟩ := (ih _ hszEnd).1 env i (Selector.after a b c) cc le_rfl hcc
              refine ⟨?_, h2⟩
              show (i.queryC env (Selector.after a b c) cc).1.head? =
                i.queryFirst env (Selector.after a b c)
              rw [h1]
              rfl
            | and xs =>
              obtain ⟨h1, h2⟩ := (ih _ hszEnd).1 env i (Selector.and xs) cc le_rfl hcc
              refine ⟨?_, h2⟩
              show (i.queryC env (Selector.and xs) cc).1.head? =
                i.queryFirst env (Selector.and xs)
              rw [h1]
              rfl
            | or xs =>
              obtain ⟨h1, h2⟩ := (ih _ hszEnd).1 env i (Selector.or xs) cc le_rfl hcc
              refine ⟨?_, h2⟩
              show (i.queryC env (Selector.or xs) cc).1.head? =
                i.queryFirst env (Selector.or xs)
              rw [h1]
              rfl
          obtain ⟨hb1, hb2⟩ := hbnd _ hP2
          rw [queryC_after_reduce env i sel startSel inclusive cache hlk]
          have hfst : (afterRC env i sel startSel inclusive cache).1 =
              i.query env (.after sel startSel inclusive) := by
            rw [query_after_eq, afterRC, hb1]
            cases i.queryFirst env startSel with
            | some c => simp only [hP1]
            | none => simp only [hP1]
          have hsnd : (afterRC env i sel startSel inclusive cache).2 =
              (boundaryC env i startSel (i.queryC env sel cache).2).2 := by
            rw [afterRC]
            cases (boundaryC env i startSel (i.queryC env sel cache).2).1 <;> rfl
          refine ⟨hfst, ?_⟩
          intro p hp
          rcases List.mem_cons.mp hp with rfl | hp'
          · exact hfst
          · rw [hsnd] at hp'
            exact hb2 p hp'
        | and sels =>
          have hsz : sizeOf sels < n := by
            have h := hs
            simp only [Selector.and.sizeOf_spec] at h
            omega
          obtain ⟨h1, h2⟩ := (ih _ hsz).2 env i sels cache le_rfl hvalid
          rw [queryC_and_reduce env i sels cache hlk]
          have hfst : andCombine i (i.queryAll env sels cache).1 =
              i.query env (.and sels) := by
            rw [h1, query_and_eq]
          refine ⟨hfst, ?_⟩
          intro p hp
          rcases List.mem_cons.mp hp with rfl | hp'
          · exact hfst
          · exact h2 p hp'
        | or sels =>
          have hsz : sizeOf sels < n := by
            have h := hs
            simp only [Selector.or.sizeOf_spec] at h
            omega
          obtain ⟨h1, h2⟩ := (ih _ hsz).2 env i sels cache le_rfl hvalid
          rw [queryC_or_reduce env i sels cache hlk]
          have hfst : orCombine i (i.queryAll env sels cache).1 =
              i.query env (.or sels) := by
            rw [h1, query_or_eq]
          refine ⟨hfst, ?_⟩
          intro p hp
          rcases List.mem_cons.mp hp with rfl | hp'
          · exact hfst
          · exact h2 p hp'
    · intro env i sels cache hs hvalid
      cases sels with
      | nil =>
        rw [Introspector.queryAll]
        exact ⟨rfl, hvalid⟩
      | cons s rest =>
        have hszS : sizeOf s < n := by
          have h := hs
          simp only [List.cons.sizeOf_spec] at h
          omega
        have hszR : sizeOf rest < n := by
          have h := hs
          simp only [List.cons.sizeOf_spec] at h
          omega
        obtain ⟨h1, h2⟩ := (ih _ hszS).1 env i s cache le_rfl hvalid
        obtain ⟨h3, h4⟩ :=
          (ih _ hszR).2 env i rest (i.queryC env s cache).2 le_rfl h2
        rw [Introspector.queryAll]
        constructor
        · rw [List.map_cons]
          show (i.queryC env s cache).1 ::
              (i.queryAll env rest (i.queryC env s cache).2).1 =
            i.query env s :: rest.map (i.query env)
          rw [h1, h3]
        · exact h4

/-! ## Claim theorems -/

/-- C1: for every built index and every selector of the algebra (Label,
Elem/Regex/Can scans, Location, Before, After, And, Or), the list returned by
`query` is strictly increasing in document index and contains no duplicate
elements. -/
theorem c1_query_sorted_and_dupfree (frames : List Frame) (env : MatchEnv)
    (s : Selector) :
    List.Sorted (· < ·)
      (((introspectorNew frames).query env s).map (introspectorNew frames).index) ∧
    ((introspectorNew frames).query env s).Nodup := by
  have h := goodList_query env _ (wf_introspectorNew frames) s
  exact ⟨h.1, (nodup_of_sorted_lt h.1).of_map⟩

/-- C2 (counterexample): a frame carrying two element markers with the same
location does not abort extraction — the index is silently built, keeping
only the first marker (the second marker's label never enters the label
cache).  This contradicts the claim that a duplicate location is a fatal
violation that never results in a silently built index: the source's match
guard `if !self.elems.contains_key(..)` routes the duplicate to the ignoring
`_ => {}` arm, so `assert!(ret.is_none(), "duplicate locations")` can never
fire. -/
theorem c2_counterexample :
    (introspectorNew [dupFrame]).elems.map (fun e => e.1) = [dupC1] ∧
    (introspectorNew [dupFrame]).labelCache = [("a", [0])] := by
  constructor <;> rfl

/-- C2 (amended): during extraction, an element marker whose location is
already indexed is silently skipped (first occurrence wins) and construction
continues; the insertion assert is unreachable because the match guard
filters duplicates. -/
theorem c2_amended_duplicate_skipped (i : Introspector) (pos : Point)
    (c : Content) (rest : Frame) (page : Nat) (ts : Transform)
    (h : i.containsKey c.loc = true) :
    extract i ((pos, .elem c) :: rest) page ts = extract i rest page ts := by
  rw [extract, extractItem, insertElem, if_pos h]

theorem c2_amended_witness :
    (introspectorNew [[(⟨0, 0⟩, .elem dupC1)]]).containsKey dupC2.loc = true ∧
    extract (introspectorNew [[(⟨0, 0⟩, .elem dupC1)]])
        [(⟨0, 0⟩, .elem dupC2)] 1 Transform.identity =
      extract (introspectorNew [[(⟨0, 0⟩, .elem dupC1)]]) [] 1 Transform.identity :=
  ⟨by decide, c2_amended_duplicate_skipped _ _ _ _ _ _ (by decide)⟩

/-- C5: nested transform composition.  For an element nested two groups deep
— outer group at offset `(dx2, dy2)` with transform `T2`, inner group at
offset `(dx1, dy1)` with transform `T1`, element at local point `p` — the
recorded position point is `apply(T2, apply(T1, p) + (dx1, dy1)) + (dx2,
dy2)`, for arbitrary transforms including rotations and scales; the
accumulated transform composes as `accumulated.translate(pos).compose(T)`. -/
theorem c5_nested_transforms (o2 o1 p : Point) (T2 T1 : Transform)
    (c : Content) :
    ((introspectorNew [nestedFrame o2 o1 p T2 T1 c]).position c.loc).point =
      (((p.transform T1).add o1).transform T2).add o2 := by
  have helems : (introspectorNew [nestedFrame o2 o1 p T2 T1 c]).elems =
      [(c, ⟨1, p.transform
        ((((Transform.identity.pre_concat
              (Transform.translate o2.x o2.y)).pre_concat T2).pre_concat
            (Transform.translate o1.x o1.y)).pre_concat T1)⟩)] := by
    show (insertElem ⟨1, [], [], []⟩ c ⟨1, p.transform
        ((((Transform.identity.pre_concat
              (Transform.translate o2.x o2.y)).pre_concat T2).pre_concat
            (Transform.translate o1.x o1.y)).pre_concat T1)⟩).elems = _
    rw [insertElem_elems]
    rfl
  have hpos : (introspectorNew [nestedFrame o2 o1 p T2 T1 c]).position c.loc =
      ⟨1, p.transform
        ((((Transform.identity.pre_concat
              (Transform.translate o2.x o2.y)).pre_concat T2).pre_concat
            (Transform.translate o1.x o1.y)).pre_concat T1)⟩ := by
    unfold Introspector.position
    rw [helems]
    simp [List.find?]
  rw [hpos]
  simp only [Point.transform_pre_concat, Point.transform_translate,
    Point.transform_identity]

/-- C7: for a location absent from the element index, `position` returns the
defensive default `{page 1, origin}` (it is a total function — never fails),
and consequently `page` returns `1`. -/
theorem c7_position_defensive_default (frames : List Frame) (loc : Nat)
    (h : loc ∉ (introspectorNew frames).locs) :
    (introspectorNew frames).position loc = ⟨1, ⟨0, 0⟩⟩ ∧
    (introspectorNew frames).page loc = 1 := by
  have hfind : (introspectorNew frames).elems.find?
      (fun e => e.1.loc == loc) = none := by
    rw [List.find?_eq_none]
    intro e he
    intro hbeq
    exact h (List.mem_map.mpr ⟨e, he, by simpa using hbeq⟩)
  constructor
  · unfold Introspector.position
    rw [hfind]
  · unfold Introspector.page Introspector.position
    rw [hfind]

theorem c7_position_witness :
    (0 ∉ (introspectorNew []).locs) ∧
    (introspectorNew []).position 0 = ⟨1, ⟨0, 0⟩⟩ ∧
    (introspectorNew []).page 0 = 1 :=
  ⟨by decide, c7_position_defensive_default [] 0 (by decide)⟩

/-- C10: `And` and `Or` over an empty list of sub-selectors both evaluate to
the empty list on every built index. -/
theorem c10_empty_set_operations (frames : List Frame) (env : MatchEnv) :
    (introspectorNew frames).query env (.and []) = [] ∧
    (introspectorNew frames).query env (.or []) = [] := by
  constructor
  · rw [query_and_eq]
    rfl
  · rw [query_or_eq]
    rfl

theorem pageNumbering_eq_getD (i : Introspector) (loc : Nat) :
    i.pageNumbering loc = i.pageNumberings.getD (i.page loc - 1) none := by
  unfold Introspector.pageNumbering
  simp only [List.get?_eq_getElem?, List.getD]
  cases i.pageNumberings[i.page loc - 1]? <;> rfl

theorem flatten_getD_singletons :
    ∀ (ls : List (List (Option Nat))), (∀ l ∈ ls, l.length = 1) →
    ∀ k, k < ls.length →
      ls.flatten.getD k none = (ls.getD k []).headD none := by
  intro ls
  induction ls with
  | nil =>
    intro _ k hk
    simp at hk
  | cons l rest ih =>
    intro hone k hk
    obtain ⟨a, rfl⟩ := List.length_eq_one.mp (hone l (List.mem_cons_self _ _))
    cases k with
    | zero => simp
    | succ k2 =>
      have hk2 : k2 < rest.length := by simpa using hk
      have := ih (fun l2 hl2 => hone l2 (List.mem_cons_of_mem _ hl2)) k2 hk2
      simpa using this

/-- C3 (counterexample): in a document whose first page carries no
numbering-override marker, the marker reached while walking page 2 is
appended at index 0 of the global list, i.e. into page 1's slot; for the
element on page 2, `page_numbering` reads index 1 and returns `none`,
although the claim's per-page-slot account predicts `some 7` (the value of
the marker reached while walking page 2). -/
theorem c3_counterexample :
    (introspectorNew c3Frames).page 5 = 2 ∧
    frameNumberings (c3Frames.getD 1 []) = [some 7] ∧
    (introspectorNew c3Frames).pageNumberings = [some 7] ∧
    (introspectorNew c3Frames).pageNumbering 5 = none ∧
    ¬(introspectorNew c3Frames).pageNumbering 5 = some 7 := by
  refine ⟨?_, ?_, ?_, ?_, ?_⟩ <;> decide

/-- C3 (amended): `page_numbering(L)` reads 0-based index `p - 1` of one
global list to which the extractor appends every numbering-override marker
value in walk order across the whole document (not a per-page slot), and
returns `none` when that index is out of range or holds no override.  When
every page frame contributes exactly one marker, this coincides with the
value of page `p`'s own marker. -/
theorem c3_amended_global_numbering (frames : List Frame) (loc : Nat) :
    (introspectorNew frames).pageNumbering loc =
      ((frames.map frameNumberings).flatten).getD
        ((introspectorNew frames).page loc - 1) none ∧
    ((∀ f ∈ frames, (frameNumberings f).length = 1) →
      (introspectorNew frames).page loc - 1 < frames.length →
      (introspectorNew frames).pageNumbering loc =
        (frameNumberings
          (frames.getD ((introspectorNew frames).page loc - 1) [])).headD
          none) := by
  have hpn := introspectorNew_pageNumberings frames
  constructor
  · rw [pageNumbering_eq_getD, hpn]
  · intro hone hlt
    rw [pageNumbering_eq_getD, hpn]
    have hall : ∀ l ∈ frames.map frameNumberings, l.length = 1 := by
      intro l hl
      obtain ⟨f, hf, rfl⟩ := List.mem_map.mp hl
      exact hone f hf
    have hlen : (introspectorNew frames).page loc - 1 <
        (frames.map frameNumberings).length := by simpa using hlt
    rw [flatten_getD_singletons _ hall _ hlen]
    congr 1
    rw [List.getD_eq_getElem _ _ hlen, List.getElem_map,
      List.getD_eq_getElem _ _ hlt]

theorem c3_amended_witness :
    (∀ f ∈ c3GoodFrames, (frameNumberings f).length = 1) ∧
    (introspectorNew c3GoodFrames).page 30 - 1 < c3GoodFrames.length ∧
    (introspectorNew c3GoodFrames).pageNumbering 30 =
      ((c3GoodFrames.map frameNumberings).flatten).getD
        ((introspectorNew c3GoodFrames).page 30 - 1) none ∧
    (introspectorNew c3GoodFrames).pageNumbering 30 =
      List.headD
        (frameNumberings
          (c3GoodFrames.getD ((introspectorNew c3GoodFrames).page 30 - 1) []))
        none :=
  ⟨by decide, by decide,
   (c3_amended_global_numbering c3GoodFrames 30).1,
   (c3_amended_global_numbering c3GoodFrames 30).2 (by decide) (by decide)⟩

/-- C4: range splitting.  If the boundary selector resolves to no element,
`Before`/`After` return the inner list unchanged; if the inner list covers
document indices `[0..n)` and the boundary element has document index
`k < n`, inclusive/exclusive `Before` return `[0..k]` / `[0..k)` and
inclusive/exclusive `After` return `[k..n)` / `(k..n)`; if the boundary
element exists but is absent from the inner list, the cut is made at the
binary-search insertion point (the number of inner elements with smaller
document index), regardless of the inclusive flag. -/
theorem c4_range_splitting (frames : List Frame) (env : MatchEnv)
    (inner endSel : Selector) :
    ((introspectorNew frames).queryFirst env endSel = none →
      ∀ inclusive : Bool,
        (introspectorNew frames).query env (.before inner endSel inclusive) =
          (introspectorNew frames).query env inner ∧
        (introspectorNew frames).query env (.after inner endSel inclusive) =
          (introspectorNew frames).query env inner) ∧
    (∀ (b : Content) (n k : Nat),
      (introspectorNew frames).queryFirst env endSel = some b →
      ((introspectorNew frames).query env inner).map
          (introspectorNew frames).index = List.range n →
      (introspectorNew frames).index b = k → k < n →
      (introspectorNew frames).query env (.before inner endSel true) =
          ((introspectorNew frames).query env inner).take (k + 1) ∧
        (introspectorNew frames).query env (.before inner endSel false) =
          ((introspectorNew frames).query env inner).take k ∧
        (introspectorNew frames).query env (.after inner endSel true) =
          ((introspectorNew frames).query env inner).drop k ∧
        (introspectorNew frames).query env (.after inner endSel false) =
          ((introspectorNew frames).query env inner).drop (k + 1)) ∧
    (∀ b : Content,
      (introspectorNew frames).queryFirst env endSel = some b →
      (introspectorNew frames).index b ∉
        ((introspectorNew frames).query env inner).map
          (introspectorNew frames).index →
      ∀ inclusive : Bool,
        (introspectorNew frames).query env (.before inner endSel inclusive) =
          ((introspectorNew frames).query env inner).take
            (((introspectorNew frames).query env inner).countP
              (fun e => decide ((introspectorNew frames).index e <
                (introspectorNew frames).index b))) ∧
        (introspectorNew frames).query env (.after inner endSel inclusive) =
          ((introspectorNew frames).query env inner).drop
            (((introspectorNew frames).query env inner).countP
              (fun e => decide ((introspectorNew frames).index e <
                (introspectorNew frames).index b)))) := by
  have hs : List.Sorted (· < ·)
      (((introspectorNew frames).query env inner).map
        (introspectorNew frames).index) :=
    (goodList_query env _ (wf_introspectorNew frames) inner).1
  refine ⟨?_, ?_, ?_⟩
  · intro h inclusive
    constructor
    · rw [query_before_eq, h]
    · rw [query_after_eq, h]
  · intro b n k hqf hrange hidx hk
    have hlen : ((introspectorNew frames).query env inner).length = n := by
      have := congrArg List.length hrange
      simpa using this
    have hkL : k < ((introspectorNew frames).query env inner).length := by
      omega
    have hkey : (introspectorNew frames).index
        (((introspectorNew frames).query env inner).getD k default) = k := by
      rw [List.getD_eq_getElem _ _ hkL]
      have h1 := congrArg (fun l => l[k]?) hrange
      simp only [List.getElem?_map, List.getElem?_eq_getElem hkL,
        List.getElem?_range hk, Option.map_some'] at h1
      exact Option.some.inj h1
    have hfound : (introspectorNew frames).binarySearch
        ((introspectorNew frames).query env inner) b = .found k := by
      refine (introspectorNew frames).binarySearch_found_at hs hkL ?_
      rw [hidx, hkey]
    refine ⟨?_, ?_, ?_, ?_⟩
    · rw [query_before_eq]
      simp only [hqf]
      unfold beforeSplit
      rw [hfound]
      simp
    · rw [query_before_eq]
      simp only [hqf]
      unfold beforeSplit
      rw [hfound]
      simp
    · rw [query_after_eq]
      simp only [hqf]
      unfold afterSplit
      rw [hfound]
      simp
    · rw [query_after_eq]
      simp only [hqf]
      unfold afterSplit
      rw [hfound]
      simp
  · intro b hqf hnm inclusive
    have hmiss := (introspectorNew frames).binarySearch_missing hs hnm
    constructor
    · rw [query_before_eq]
      simp only [hqf]
      unfold beforeSplit
      rw [hmiss]
    · rw [query_after_eq]
      simp only [hqf]
      unfold afterSplit
      rw [hmiss]

theorem c4_range_splitting_witness :
    ((introspectorNew wFrames).query wEnv (.before (.elem 9) (.location 99) true) =
      (introspectorNew wFrames).query wEnv (.elem 9)) ∧
    ((introspectorNew wFrames).query wEnv (.before (.elem 9) (.location 11) true) =
      ((introspectorNew wFrames).query wEnv (.elem 9)).take 2) ∧
    ((introspectorNew wFrames).query wEnv (.after (.elem 9) (.location 11) false) =
      ((introspectorNew wFrames).query wEnv (.elem 9)).drop 2) ∧
    ((introspectorNew wFrames).query wEnv (.before (.elem 0) (.location 11) true) =
      ((introspectorNew wFrames).query wEnv (.elem 0)).take
        (((introspectorNew wFrames).query wEnv (.elem 0)).countP
          (fun e => decide ((introspectorNew wFrames).index e <
            (introspectorNew wFrames).index wC1)))) :=
  ⟨((c4_range_splitting wFrames wEnv (.elem 9) (.location 99)).1
      (by decide) true).1,
   ((c4_range_splitting wFrames wEnv (.elem 9) (.location 11)).2.1 wC1 3 1
      (by decide) (by decide) (by decide) (by decide)).1,
   ((c4_range_splitting wFrames wEnv (.elem 9) (.location 11)).2.1 wC1 3 1
      (by decide) (by decide) (by decide) (by decide)).2.2.2,
   ((c4_range_splitting wFrames wEnv (.elem 0) (.location 11)).2.2 wC1
      (by decide) (by decide) true).1⟩

/-- C6: `query_label` performs exactly-one resolution over the label cache of
a built index: an absent label yields the user-facing "does not exist" error
carrying the label text; two or more entries yield the "occurs multiple
times" error carrying the label text; exactly one entry yields that
element's snapshot (which indeed carries the label). -/
theorem c6_query_label_resolution (frames : List Frame) (l : String) :
    (List.lookup l (introspectorNew frames).labelCache = none →
      (introspectorNew frames).queryLabel l =
        .err ("label `<" ++ l ++ ">` does not exist in the document")) ∧
    (∀ idxs : List Nat,
      List.lookup l (introspectorNew frames).labelCache = some idxs →
      2 ≤ idxs.length →
      (introspectorNew frames).queryLabel l =
        .err ("label `<" ++ l ++ ">` occurs multiple times in the document")) ∧
    (∀ k : Nat,
      List.lookup l (introspectorNew frames).labelCache = some [k] →
      (introspectorNew frames).queryLabel l =
          .ok ((introspectorNew frames).elemAt k) ∧
        ((introspectorNew frames).elemAt k).label = some l) := by
  refine ⟨?_, ?_, ?_⟩
  · intro h
    unfold Introspector.queryLabel
    rw [h]
  · intro idxs h hlen
    unfold Introspector.queryLabel
    simp only [h]
    rw [if_pos (by omega)]
  · intro k h
    constructor
    · unfold Introspector.queryLabel
      simp only [h]
      rw [if_neg (by simp)]
      rfl
    · obtain ⟨key, hk1, hk2⟩ := lookup_mem h
      obtain rfl : l = key := eq_of_beq hk2
      exact (wf_introspectorNew frames).labelCorrect _ hk1 k
        (List.mem_singleton.mpr rfl)

theorem c6_query_label_witness :
    (introspectorNew lFrames).queryLabel "x" =
      .err ("label `<" ++ "x" ++ ">` does not exist in the document") ∧
    (introspectorNew lFrames).queryLabel "d" =
      .err ("label `<" ++ "d" ++ ">` occurs multiple times in the document") ∧
    (introspectorNew lFrames).queryLabel "u" =
        .ok ((introspectorNew lFrames).elemAt 0) ∧
      ((introspectorNew lFrames).elemAt 0).label = some "u" :=
  ⟨(c6_query_label_resolution lFrames "x").1 (by decide),
   (c6_query_label_resolution lFrames "d").2.1 [1, 2] (by decide) (by decide),
   (c6_query_label_resolution lFrames "u").2.2 0 (by decide)⟩

/-- C8: intersection is commutative — for every pair of selectors, querying
`And [a, b]` and `And [b, a]` on a built index returns the same document
order sequence, although evaluation probes with the shortest sub-result. -/
theorem c8_and_commutative (frames : List Frame) (env : MatchEnv)
    (a b : Selector) :
    (introspectorNew frames).query env (.and [a, b]) =
      (introspectorNew frames).query env (.and [b, a]) := by
  rw [query_and_eq, query_and_eq]
  simp only [List.map_cons, List.map_nil]
  exact andCombine_pair_comm _
    (goodList_query env _ (wf_introspectorNew frames) a)
    (goodList_query env _ (wf_introspectorNew frames) b)

/-- C9: the memoizing query is idempotent and cache-transparent — on any
cache whose entries record pure evaluation results, the cached query returns
exactly what the evaluator computes on a miss, leaves the cache valid, and a
repeated call returns identical content. -/
theorem c9_cache_transparent (env : MatchEnv) (i : Introspector) (s : Selector)
    (cache : Cache) (hvalid : ∀ p ∈ cache, p.2 = i.query env p.1) :
    (i.queryC env s cache).1 = i.query env s ∧
    (∀ p ∈ (i.queryC env s cache).2, p.2 = i.query env p.1) ∧
    (i.queryC env s (i.queryC env s cache).2).1 = (i.queryC env s cache).1 := by
  obtain ⟨h1, h2⟩ := (queryC_sound (sizeOf s)).1 env i s cache le_rfl hvalid
  refine ⟨h1, h2, ?_⟩
  obtain ⟨h3, _⟩ := (queryC_sound (sizeOf s)).1 env i s _ le_rfl h2
  rw [h3, h1]

theorem c9_cache_transparent_witness :
    ((introspectorNew wFrames).queryC wEnv (.elem 0) []).1 =
      (introspectorNew wFrames).query wEnv (.elem 0) ∧
    (∀ p ∈ ((introspectorNew wFrames).queryC wEnv (.elem 0) []).2,
      p.2 = (introspectorNew wFrames).query wEnv p.1) ∧
    ((introspectorNew wFrames).queryC wEnv (.elem 0)
        (((introspectorNew wFrames).queryC wEnv (.elem 0) []).2)).1 =
      ((introspectorNew wFrames).queryC wEnv (.elem 0) []).1 :=
  c9_cache_transparent wEnv (introspectorNew wFrames) (.elem 0) []
    (fun p hp => absurd hp (List.not_mem_nil p))

end Introspection
